import Mathlib

/-!
Verification of the quantmod theming layer (`quantmod/tools.py`).

The development is a shallow embedding of `tools.py` over a model of the
Python values the module manipulates (`PVal`): dicts are association lists
with string keys, exceptions are modelled by `Except String`, and the
in-place mutation that the Python code performs on its dict arguments is
modelled by explicit value passing.  `utils.update` and the data modules
(`theming/skeleton.py`, `theming/themes.py`, `auth.py`) are not part of the
sources; where they are needed they are modelled from the specification and
flagged as such in the doc comments.  A second, heap-based model at the end
of the file captures the aliasing behaviour of `copy.deepcopy`.
-/

namespace Quantmod

/-- Model of the Python values handled by `tools.py`: `None`, booleans,
integers, strings, tuples, lists and string-keyed dicts. -/
inductive PVal where
  | none : PVal
  | bool : Bool → PVal
  | int : Int → PVal
  | str : String → PVal
  | tuple : List PVal → PVal
  | list : List PVal → PVal
  | dict : List (String × PVal) → PVal

/-- A Python dict with string keys, as an ordered association list
(Python dicts preserve insertion order). -/
abbrev Dict := List (String × PVal)

/-- First-match lookup, i.e. Python `d[k]` / `k in d` on a dict whose
entries are listed in insertion order with distinct keys. -/
def lookup : Dict → String → Option PVal
  | [], _ => Option.none
  | (k', v) :: rest, k => if k' = k then some v else lookup rest k

/-- Python `d.get(k, None)`. -/
def lookupD (d : Dict) (k : String) : PVal :=
  match lookup d k with
  | some v => v
  | Option.none => PVal.none

/-- Python `d[k] = v`: replace in place if the key is present, otherwise
append at the end (insertion order). -/
def dSet : Dict → String → PVal → Dict
  | [], k, v => [(k, v)]
  | (k', v') :: rest, k, v =>
      if k' = k then (k', v) :: rest else (k', v') :: dSet rest k v

/-- The key list of a dict, i.e. Python `list(d)`. -/
def dictKeys (d : Dict) : List String := d.map Prod.fst

/-- Python truthiness (`bool(v)`) for the modelled values. -/
def PVal.truthy : PVal → Bool
  | PVal.none => false
  | PVal.bool b => b
  | PVal.int n => n != 0
  | PVal.str s => !s.isEmpty
  | PVal.tuple xs => !xs.isEmpty
  | PVal.list xs => !xs.isEmpty
  | PVal.dict d => !d.isEmpty

/-- Python `v == False`: only booleans and numbers compare equal to
`False` (`False == False`, `0 == False`); every other value is unequal. -/
def pyEqFalse : PVal → Bool
  | PVal.bool b => !b
  | PVal.int n => n == 0
  | _ => false

/-- `isinstance(v, dict)`. -/
def PVal.isDict : PVal → Bool
  | PVal.dict _ => true
  | _ => false

/-- `isinstance(v, tuple)`. -/
def PVal.isTuple : PVal → Bool
  | PVal.tuple _ => true
  | _ => false

/-- `isinstance(v, list)`. -/
def PVal.isList : PVal → Bool
  | PVal.list _ => true
  | _ => false

/-- `isinstance(v, six.string_types)`. -/
def PVal.isStr : PVal → Bool
  | PVal.str _ => true
  | _ => false

/-- `isinstance(v, bool)`. -/
def PVal.isBool : PVal → Bool
  | PVal.bool _ => true
  | _ => false

/-- `isinstance(v, six.integer_types)`; Python booleans are integers. -/
def PVal.isIntLike : PVal → Bool
  | PVal.int _ => true
  | PVal.bool _ => true
  | _ => false

mutual

/-- Modelled from the spec: `utils.update` (the file `utils.py` is not in
the sources).  Per the spec it is a recursive dict merge with override
semantics: when both sides hold dicts the entries are merged recursively,
otherwise the override value wins. -/
def update : PVal → PVal → PVal
  | PVal.dict b, PVal.dict o => PVal.dict (updL b o)
  | _, v => v
termination_by b o => sizeOf o
decreasing_by all_goals (simp_wf; try omega)

/-- Entry-level worker of `update`: fold the override entries into the
base dict, merging recursively via `update` when both values are dicts
(`update(dict1.get(key, {}), value)` in the spec's description). -/
def updL : Dict → Dict → Dict
  | b, [] => b
  | b, (k, v) :: rest => updL (dSet b k (update (lookupD b k) v)) rest
termination_by b o => sizeOf o
decreasing_by all_goals (simp_wf; try omega)

end

/-- `True` on `Except.error`, i.e. "this call raised an exception". -/
def isErr {α : Type} : Except String α → Bool
  | Except.error _ => true
  | Except.ok _ => false

/-- The validation loops of `tools.py`
(`for key in d: if key not in VALID: raise Exception(...)`). -/
def checkKeys (valid : List String) : List String → Except String Unit
  | [] => Except.ok ()
  | k :: rest =>
      if k ∈ valid then checkKeys valid rest
      else Except.error ("Invalid keyword " ++ k)

/-- `_VALID_BASE_COMPONENTS` from `tools.py`. -/
def _VALID_BASE_COMPONENTS : List String :=
  ["base_colors", "base_traces", "base_additions", "base_layout"]

/-- `_VALID_THEME_COMPONENTS` from `tools.py`. -/
def _VALID_THEME_COMPONENTS : List String :=
  ["colors", "traces", "additions", "layout"]

/-- `_VALID_COLORS` from `tools.py`. -/
def _VALID_COLORS : List String :=
  ["increasing", "decreasing", "primary", "secondary", "tertiary",
   "grey", "grey_light", "grey_strong", "fill", "fill_light", "fill_strong",
   "fillcolor"]

/-- `_VALID_TRACES` from `tools.py`. -/
def _VALID_TRACES : List String :=
  ["candlestick", "line", "line_thin", "line_thick", "line_dashed",
   "line_dashed_thin", "line_dashed_thick", "area", "area_dashed",
   "area_threshold", "scatter", "bar", "histogram"]

/-- `_VALID_ADDITIONS` from `tools.py`. -/
def _VALID_ADDITIONS : List String := ["xaxis", "yaxis"]

/-- `_VALID_LAYOUT` from `tools.py`. -/
def _VALID_LAYOUT : List String :=
  ["title", "width", "height", "autosize", "font", "margin", "hovermode",
   "plot_bgcolor", "paper_bgcolor", "showlegend", "legend"]

/-- `_VALID_TEMPLATE_KWARGS` from `tools.py`. -/
def _VALID_TEMPLATE_KWARGS : List String := ["figsize"]

/-- Python `d[k]` on a dict: the value, or a `KeyError`. -/
def dGet (d : Dict) (k : String) : Except String PVal :=
  match lookup d k with
  | some v => Except.ok v
  | Option.none => Except.error ("KeyError: " ++ k)

/-- Python `obj[k]` on an arbitrary value: `KeyError` on a dict without
the key, `TypeError` on a non-dict. -/
def pGetItem : PVal → String → Except String PVal
  | PVal.dict d, k => dGet d k
  | _, _ => Except.error "TypeError: object is not subscriptable"

/-- Python `obj[k] = v` on an arbitrary value (returning the updated
value): `TypeError` unless `obj` is a dict. -/
def pSetItem : PVal → String → PVal → Except String PVal
  | PVal.dict d, k, v => Except.ok (PVal.dict (dSet d k v))
  | _, _, _ => Except.error "TypeError: object does not support item assignment"

/-- `make_colors` (`tools.py` lines 70-99): validate the override keys,
merge the overrides into `base_colors` with `utils.update` (in-place in
Python, value-passing here; `_expand` is a no-op `pass`), validate the
merged keys, and return the merged dict. -/
def make_colors (base_colors colors : Dict) : Except String Dict := do
  checkKeys _VALID_COLORS (dictKeys colors)
  let base_colors := updL base_colors colors
  checkKeys _VALID_COLORS (dictKeys base_colors)
  return base_colors

/-- `make_additions` (`tools.py` lines 157-187): same shape as
`make_colors` with the `_VALID_ADDITIONS` allow-list. -/
def make_additions (base_additions additions : Dict) : Except String Dict := do
  checkKeys _VALID_ADDITIONS (dictKeys additions)
  let base_additions := updL base_additions additions
  checkKeys _VALID_ADDITIONS (dictKeys base_additions)
  return base_additions

/-- The `_expand` closure of `make_traces` (`tools.py` lines 120-140):
derives the non-elementary traces from `candlestick`, `line` and `bar`.
The bare subscripts `base_traces['candlestick']` / `['line']` / `['bar']`
raise `KeyError` when the entry is missing, and the item assignments on
the copies of `line` raise `TypeError` when `line` is not a dict. -/
def expandTraces (base_traces : Dict) : Except String Dict := do
  let _ ← dGet base_traces "candlestick"
  let line ← dGet base_traces "line"
  let b := dSet base_traces "line_thin" line
  let b := dSet b "line_thick" line
  let b := dSet b "line_dashed" line
  let b := dSet b "line_dashed_thin" line
  let b := dSet b "line_dashed_thick" line
  let area ← pSetItem line "fill" (PVal.str "tonexty")
  let b := dSet b "area" area
  let b := dSet b "area_dashed" area
  let b := dSet b "area_threshold" area
  let scatter ← pSetItem line "mode" (PVal.str "markers")
  let b := dSet b "scatter" scatter
  let bar ← dGet b "bar"
  let b := dSet b "histogram" bar
  Except.ok b

/-- The modifier loop of `make_traces` (`tools.py` lines 146-147):
`utils.update(base_traces[key]['line'], traces[key])` for each override
key, i.e. an in-place merge into the `line` sub-dict of the overridden
entry (value-passing write-back here). -/
def applyTraceMods : Dict → Dict → Except String Dict
  | b, [] => Except.ok b
  | b, (k, v) :: rest => do
      let entry ← dGet b k
      let lineSub ← pGetItem entry "line"
      let entry2 ← pSetItem entry "line" (update lineSub v)
      applyTraceMods (dSet b k entry2) rest

/-- Does `b[k]` exist, hold a dict, and carry a `'line'` entry — i.e. can
the modifier loop of `make_traces` process key `k` without raising? -/
def traceModOk (b : Dict) (k : String) : Bool :=
  match lookup b k with
  | some (PVal.dict sub) => (lookup sub "line").isSome
  | _ => false

/-- The keys that `_expand` derives and (re)assigns. -/
def expandKeys : List String :=
  ["line_thin", "line_thick", "line_dashed", "line_dashed_thin",
   "line_dashed_thick", "area", "area_dashed", "area_threshold",
   "scatter", "histogram"]

/-- `make_traces` (`tools.py` lines 102-154): validate the override keys,
expand the elementary traces, merge each override into the `line`
sub-dict of its entry, validate the resulting keys, and return. -/
def make_traces (base_traces traces : Dict) : Except String Dict := do
  checkKeys _VALID_TRACES (dictKeys traces)
  let b ← expandTraces base_traces
  let b ← applyTraceMods b traces
  checkKeys _VALID_TRACES (dictKeys b)
  return b

/-- First stage of `make_layout` (`tools.py` lines 245-264): the
`legend = True  # Debug` line makes the legend branch unconditionally set
`showlegend = True` (and never copy the `legend` argument), then the
truthy arguments among hovermode/annotations/shapes/title are copied in,
and `autosize = False` is set when dimensions, height or width is truthy. -/
def mlStage1 (b : Dict) (hovermode annotations shapes title dimensions width height : PVal) : Dict :=
  let b := dSet b "showlegend" (PVal.bool true)
  let b := if hovermode.truthy then dSet b "hovermode" hovermode else b
  let b := if annotations.truthy then dSet b "annotations" annotations else b
  let b := if shapes.truthy then dSet b "shapes" shapes else b
  let b := if title.truthy then dSet b "title" title else b
  if dimensions.truthy || height.truthy || width.truthy then
    dSet b "autosize" (PVal.bool false)
  else b

/-- Second stage of `make_layout` (`tools.py` lines 270-277), reached only
when `dimensions` is falsy: copy truthy height/width/margin into the
layout. -/
def mlStage2 (b : Dict) (height width margin : PVal) : Dict :=
  let b := if height.truthy then dSet b "height" height else b
  let b := if width.truthy then dSet b "width" width else b
  if margin.truthy then dSet b "margin" margin else b

/-- `make_layout` (`tools.py` lines 190-287): validate the theme layout
keys, merge them into `base_layout` (`_expand` is a no-op `pass`), apply
the argument modifiers, and validate the final keys.  When `dimensions`
is truthy, `base_layout['width'] = dimensions[0]` is followed by the
misspelled `bsae_layout['height'] = dimensions[1]`, so the call raises
`NameError` (`TypeError` first if `dimensions` is not subscriptable).
`custom_layout` is merged into the local name `layout` only, so it never
affects the returned dict; `legend` is dead because of the debug line. -/
def make_layout (base_layout layout : Dict) (custom_layout : Option Dict)
    (legend hovermode annotations shapes title dimensions width height margin : PVal) :
    Except String Dict := do
  checkKeys _VALID_LAYOUT (dictKeys layout)
  let b := updL base_layout layout
  let b := mlStage1 b hovermode annotations shapes title dimensions width height
  if dimensions.truthy then
    Except.error "NameError: name bsae_layout is not defined"
  else
    let b := mlStage2 b height width margin
    let _dead := (legend, custom_layout.map (fun cl => updL layout cl))
    do
      checkKeys _VALID_LAYOUT (dictKeys b)
      return b

/-- `get_theme` (`tools.py` lines 45-57): look the name up in `THEMES`
(modelled as the parameter `themes`, since `theming/themes.py` is not in
the sources) and return a deep copy of the bundle, else raise.  At the
value level a deep copy is the value itself; the aliasing content of the
copy is treated in the heap model below. -/
def get_theme (themes : Dict) (theme : String) : Except String PVal :=
  match lookup themes theme with
  | some v => Except.ok v
  | Option.none => Except.error ("Invalid theme " ++ theme)

/-- `get_skeleton` (`tools.py` lines 65-67): a deep copy of `SKELETON`
(modelled as the parameter `skeleton`, since `theming/skeleton.py` is not
in the sources); at the value level the copy is the value itself. -/
def get_skeleton (skeleton : Dict) : Dict := skeleton

/-- Python `len`. -/
def pyLen : PVal → Nat
  | PVal.tuple xs => xs.length
  | PVal.list xs => xs.length
  | PVal.dict d => d.length
  | PVal.str s => s.length
  | _ => 0

/-- Python `list(x)`: identity on lists, elements of a tuple, keys of a
dict, characters of a string; `TypeError` (`Option.none`) otherwise. -/
def pyToList : PVal → Option PVal
  | PVal.list xs => some (PVal.list xs)
  | PVal.tuple xs => some (PVal.list xs)
  | PVal.dict d => some (PVal.list (d.map (fun kv => PVal.str kv.1)))
  | PVal.str s => some (PVal.list (s.toList.map (fun c => PVal.str c.toString)))
  | _ => Option.none

/-- Python `80 * i` as used on `figsize` elements: numbers scale (booleans
are integers), sequences repeat, other values raise `TypeError`. -/
def pyMul80 : PVal → Except String PVal
  | PVal.int n => Except.ok (PVal.int (80 * n))
  | PVal.bool b => Except.ok (PVal.int (if b then 80 else 0))
  | PVal.str s => Except.ok (PVal.str (String.join (List.replicate 80 s)))
  | PVal.list xs => Except.ok (PVal.list (List.flatten (List.replicate 80 xs)))
  | PVal.tuple xs => Except.ok (PVal.tuple (List.flatten (List.replicate 80 xs)))
  | _ => Except.error "TypeError: unsupported operand for multiply"

/-- The margin validation/coercion step of `get_template` (`tools.py`
lines 423-435).  Note the surrounding `if margin:`: falsy margins skip
the whole check and are passed through unchanged. -/
def coerceMargin (margin : PVal) : Except String PVal :=
  if margin.truthy then
    match margin with
    | PVal.dict _ => Except.ok margin
    | PVal.tuple xs =>
        if xs.length = 4 then
          Except.ok (PVal.dict (List.zip ["l", "r", "b", "t"] xs))
        else if xs.length = 5 then
          Except.ok (PVal.dict (List.zip ["l", "r", "b", "t", "pad"] xs))
        else Except.error "Invalid margin"
    | _ => Except.error "Invalid margin"
  else Except.ok margin

/-- The skeleton split of `get_template` (`tools.py` lines 438-445):
require the four `_VALID_BASE_COMPONENTS` keys, else raise.  The
components are modelled as dicts, per the spec's description of the
skeleton as the base configuration (`theming/skeleton.py` is not in the
sources). -/
def splitSkeleton (skeleton : Dict) : Except String (Dict × Dict × Dict × Dict) :=
  match lookup skeleton "base_colors", lookup skeleton "base_traces",
        lookup skeleton "base_additions", lookup skeleton "base_layout" with
  | some (PVal.dict bc), some (PVal.dict bt), some (PVal.dict ba), some (PVal.dict bl) =>
      Except.ok (bc, bt, ba, bl)
  | _, _, _, _ =>
      Except.error "Improperly configured skeleton. Consider reinstalling Quantmod."

/-- The theme split of `get_template` (`tools.py` lines 447-453): require
the four `_VALID_THEME_COMPONENTS` keys, else raise; components modelled
as dicts per the spec (a theme is a bundle of override dicts). -/
def splitTheme (theme : PVal) : Except String (Dict × Dict × Dict × Dict) :=
  match theme with
  | PVal.dict th =>
      match lookup th "colors", lookup th "traces",
            lookup th "additions", lookup th "layout" with
      | some (PVal.dict c), some (PVal.dict t), some (PVal.dict a), some (PVal.dict l) =>
          Except.ok (c, t, a, l)
      | _, _, _, _ => Except.error "Improperly configured theme"
  | _ => Except.error "Improperly configured theme"

/-- The theme dispatch of `get_template` (`tools.py` lines 339-347): any
truthy `theme` evaluates `instance(theme, six.string_types)` and raises
`NameError`, since no name `instance` exists (`isinstance` was clearly
intended); a falsy `theme` falls back to the configured default theme. -/
def themeStep (themes : Dict) (configTheme : String) (theme : PVal) : Except String PVal :=
  if theme.truthy then Except.error "NameError: name instance is not defined"
  else get_theme themes configTheme

/-- Lines 351-359: rename a truthy `layout` to `custom_layout`, coercing
it to a plain dict (among the modelled values only dicts have a usable
`.items()`). -/
def customLayoutStep (layout : PVal) : Except String (Option Dict) :=
  if layout.truthy then
    match layout with
    | PVal.dict d => Except.ok (some d)
    | _ => Except.error "Invalid layout"
  else Except.ok Option.none

/-- Lines 363-372: legend validation; note that the fallback branch
coerces `layout` (sic), not `legend`. -/
def legendStep (legend layout : PVal) : Except String Unit :=
  if legend.truthy && !legend.isBool && !legend.isDict then
    match layout with
    | PVal.dict _ => Except.ok ()
    | _ => Except.error "Invalid legend"
  else Except.ok ()

/-- Lines 374-377: `if hovermode or hovermode == False:` then require a
string. -/
def hovermodeStep (hovermode : PVal) : Except String Unit :=
  if hovermode.truthy || pyEqFalse hovermode then
    if hovermode.isStr then Except.ok () else Except.error "Invalid hovermode"
  else Except.ok ()

/-- Lines 380-394: coerce a truthy non-list annotations/shapes argument
with `list(...)`, raising when the coercion fails. -/
def seqStep (argName : String) (v : PVal) : Except String PVal :=
  if v.truthy && !v.isList then
    match pyToList v with
    | some l => Except.ok l
    | Option.none => Except.error ("Invalid " ++ argName)
  else Except.ok v

/-- Lines 397-399: a truthy title must be a string. -/
def titleStep (title : PVal) : Except String Unit :=
  if title.truthy && !title.isStr then Except.error "Invalid title" else Except.ok ()

/-- Lines 402-412: a `figsize` kwarg (Matplotlib) is scaled by 80 into
`dimensions`; otherwise the Cufflinks guard reads
`if not isinstance(dimensions, tuple) or len(dimensions) == 2: raise`
(sic), so every 2-tuple is rejected. -/
def dimensionsStep (kwargs : Dict) (dimensions : PVal) : Except String PVal :=
  if "figsize" ∈ dictKeys kwargs then
    match lookupD kwargs "figsize" with
    | PVal.tuple [a, b] => do
        let a2 ← pyMul80 a
        let b2 ← pyMul80 b
        Except.ok (PVal.tuple [a2, b2])
    | _ => Except.error "Invalid figsize"
  else if dimensions.truthy then
    if !dimensions.isTuple || pyLen dimensions == 2 then
      Except.error "Invalid dimensions"
    else Except.ok dimensions
  else Except.ok dimensions

/-- Lines 415-421: a truthy width/height must be an integer. -/
def intStep (argName : String) (v : PVal) : Except String Unit :=
  if v.truthy && !v.isIntLike then Except.error ("Invalid " ++ argName)
  else Except.ok ()

/-- `get_template` (`tools.py` lines 290-468).  The module-level data it
reads — `THEMES`, `SKELETON` and `auth.get_config_file()['theme']` — is
not in the sources and is passed as the parameters `themes`, `skeleton`
and `configTheme`.  The remaining parameters are the Python keyword
arguments (default `None`), plus the extra `**kwargs` dict.  The
validation/coercion steps appear in source order. -/
def get_template (themes skeleton : Dict) (configTheme : String)
    (theme layout legend hovermode annotations shapes title dimensions width height margin : PVal)
    (kwargs : Dict) : Except String Dict := do
  checkKeys _VALID_TEMPLATE_KWARGS (dictKeys kwargs)
  let skel := get_skeleton skeleton
  let th ← themeStep themes configTheme theme
  let custom_layout ← customLayoutStep layout
  let _ ← legendStep legend layout
  let _ ← hovermodeStep hovermode
  let annotations ← seqStep "annotations" annotations
  let shapes ← seqStep "shapes" shapes
  let _ ← titleStep title
  let dimensions ← dimensionsStep kwargs dimensions
  let _ ← intStep "width" width
  let _ ← intStep "height" height
  let margin ← coerceMargin margin
  let quadS ← splitSkeleton skel
  let quadT ← splitTheme th
  let final_colors ← make_colors quadS.1 quadT.1
  let final_traces ← make_traces quadS.2.1 quadT.2.1
  let final_additions ← make_additions quadS.2.2.1 quadT.2.2.1
  let final_layout ← make_layout quadS.2.2.2 quadT.2.2.2 custom_layout legend hovermode
      annotations shapes title dimensions width height margin
  return [("colors", PVal.dict final_colors), ("traces", PVal.dict final_traces),
          ("additions", PVal.dict final_additions), ("layout", PVal.dict final_layout)]

/-- A minimal well-formed base-traces dict: just the three elementary
entries required by `_expand`. -/
def btraces0 : Dict :=
  [("candlestick", PVal.dict []), ("line", PVal.dict []), ("bar", PVal.dict [])]

/-- A minimal well-formed skeleton fixture. -/
def skeleton0 : Dict :=
  [("base_colors", PVal.dict []), ("base_traces", PVal.dict btraces0),
   ("base_additions", PVal.dict []), ("base_layout", PVal.dict [])]

/-- A minimal well-formed theme bundle fixture (all overrides empty). -/
def theme0 : PVal :=
  PVal.dict [("colors", PVal.dict []), ("traces", PVal.dict []),
             ("additions", PVal.dict []), ("layout", PVal.dict [])]

/-- A `THEMES` fixture holding the single theme `light`. -/
def themes0 : Dict := [("light", theme0)]

/-- `btraces0` after `_expand`: the derived traces in insertion order. -/
def btraces0x : Dict :=
  [("candlestick", PVal.dict []), ("line", PVal.dict []), ("bar", PVal.dict []),
   ("line_thin", PVal.dict []), ("line_thick", PVal.dict []),
   ("line_dashed", PVal.dict []), ("line_dashed_thin", PVal.dict []),
   ("line_dashed_thick", PVal.dict []),
   ("area", PVal.dict [("fill", PVal.str "tonexty")]),
   ("area_dashed", PVal.dict [("fill", PVal.str "tonexty")]),
   ("area_threshold", PVal.dict [("fill", PVal.str "tonexty")]),
   ("scatter", PVal.dict [("mode", PVal.str "markers")]),
   ("histogram", PVal.dict [])]

/-- The template produced from `themes0`/`skeleton0` with every argument
left at its default. -/
def template0 : Dict :=
  [("colors", PVal.dict []), ("traces", PVal.dict btraces0x),
   ("additions", PVal.dict []),
   ("layout", PVal.dict [("showlegend", PVal.bool true)])]

/-!
Heap model for `copy.deepcopy` (used by `get_theme` and `get_skeleton`).
Scalars are immutable values; dicts and lists are mutable objects living
behind numeric references, as in CPython.  `deepcopy` allocates fresh
addresses for every object it copies, so the copy shares no mutable
object with the original.  (CPython's deepcopy also memoises shared
sub-objects; copying them separately, as done here, only makes the copy
fresher.)
-/

/-- A heap-level value: a scalar, or a reference to a mutable object. -/
inductive HVal where
  | hnone : HVal
  | hbool : Bool → HVal
  | hint : Int → HVal
  | hstr : String → HVal
  | href : Nat → HVal

/-- A mutable heap object: a dict or a list. -/
inductive HObj where
  | hdict : List (String × HVal) → HObj
  | hlist : List HVal → HObj

/-- A heap: allocated objects (later writes shadow earlier entries) and
the next fresh address. -/
structure Heap where
  mem : List (Nat × HObj)
  next : Nat

/-- First-match lookup in the object list. -/
def findMem : List (Nat × HObj) → Nat → Option HObj
  | [], _ => Option.none
  | (a2, o) :: rest, a => if a2 = a then some o else findMem rest a

/-- Dereference an address. -/
def Heap.find (h : Heap) (a : Nat) : Option HObj := findMem h.mem a

/-- Allocate a fresh object, returning the new heap and its address. -/
def Heap.alloc (h : Heap) (o : HObj) : Heap × Nat :=
  (⟨(h.next, o) :: h.mem, h.next + 1⟩, h.next)

/-- Overwrite the object at an address (a mutation of that object). -/
def Heap.write (h : Heap) (a : Nat) (o : HObj) : Heap := ⟨(a, o) :: h.mem, h.next⟩

/-- First-match lookup in a heap-level dict's entries. -/
def hLookup : List (String × HVal) → String → Option HVal
  | [], _ => Option.none
  | (k2, v) :: rest, k => if k2 = k then some v else hLookup rest k

/-- The addresses a value refers to directly. -/
def refsV : HVal → List Nat
  | HVal.href a => [a]
  | _ => []

/-- The addresses an object refers to directly. -/
def refsObj : HObj → List Nat
  | HObj.hdict es => (es.map (fun kv => refsV kv.2)).flatten
  | HObj.hlist xs => (xs.map refsV).flatten

/-- All references of a value lie below `lo`. -/
def refsBelow (v : HVal) (lo : Nat) : Prop := ∀ a ∈ refsV v, a < lo

/-- All references of a value lie at or above `lo`. -/
def refsGE (v : HVal) (lo : Nat) : Prop := ∀ a ∈ refsV v, lo ≤ a

/-- All references of an object lie below `lo`. -/
def objBelow (o : HObj) (lo : Nat) : Prop := ∀ a ∈ refsObj o, a < lo

/-- All references of an object lie at or above `lo`. -/
def objGE (o : HObj) (lo : Nat) : Prop := ∀ a ∈ refsObj o, lo ≤ a

/-- Well-formed heap: every entry sits below the allocation pointer and
refers only below it. -/
def wfHeap (h : Heap) : Prop := ∀ p ∈ h.mem, p.1 < h.next ∧ objBelow p.2 h.next

instance decRefsBelow (v : HVal) (lo : Nat) : Decidable (refsBelow v lo) :=
  inferInstanceAs (Decidable (∀ a ∈ refsV v, a < lo))

instance decRefsGE (v : HVal) (lo : Nat) : Decidable (refsGE v lo) :=
  inferInstanceAs (Decidable (∀ a ∈ refsV v, lo ≤ a))

instance decObjBelow (o : HObj) (lo : Nat) : Decidable (objBelow o lo) :=
  inferInstanceAs (Decidable (∀ a ∈ refsObj o, a < lo))

instance decObjGE (o : HObj) (lo : Nat) : Decidable (objGE o lo) :=
  inferInstanceAs (Decidable (∀ a ∈ refsObj o, lo ≤ a))

instance decWfHeap (h : Heap) : Decidable (wfHeap h) :=
  inferInstanceAs (Decidable (∀ p ∈ h.mem, p.1 < h.next ∧ objBelow p.2 h.next))

/-- `h2` extends `h`: the allocation pointer grew and every address below
the old pointer dereferences identically. -/
def heapExtend (h h2 : Heap) : Prop :=
  h.next ≤ h2.next ∧ ∀ a, a < h.next → h2.find a = h.find a

/-- Every object of `h2` at or above `h`'s pointer refers only at or
above `h`'s pointer (the fresh segment is closed upward). -/
def freshSeg (h h2 : Heap) : Prop :=
  ∀ a o, h2.find a = some o → h.next ≤ a → objGE o h.next

mutual

/-- `copy.deepcopy` with fuel: scalars are returned as-is, references are
followed and their objects copied element-wise to freshly allocated
addresses. -/
def dcopy : Nat → Heap → HVal → Option (Heap × HVal)
  | 0, _, _ => Option.none
  | n + 1, h, HVal.href a =>
      match h.find a with
      | some (HObj.hdict es) =>
          match dcopyEntries n h es with
          | some (h1, es2) =>
              let al := h1.alloc (HObj.hdict es2)
              some (al.1, HVal.href al.2)
          | Option.none => Option.none
      | some (HObj.hlist xs) =>
          match dcopyVals n h xs with
          | some (h1, xs2) =>
              let al := h1.alloc (HObj.hlist xs2)
              some (al.1, HVal.href al.2)
          | Option.none => Option.none
      | Option.none => Option.none
  | _ + 1, h, v => some (h, v)

/-- Deep-copy the elements of a list object, threading the heap. -/
def dcopyVals : Nat → Heap → List HVal → Option (Heap × List HVal)
  | 0, _, _ => Option.none
  | _ + 1, h, [] => some (h, [])
  | n + 1, h, v :: rest =>
      match dcopy n h v with
      | some (h1, v2) =>
          match dcopyVals n h1 rest with
          | some (h2, rest2) => some (h2, v2 :: rest2)
          | Option.none => Option.none
      | Option.none => Option.none

/-- Deep-copy the entries of a dict object, threading the heap. -/
def dcopyEntries : Nat → Heap → List (String × HVal) →
    Option (Heap × List (String × HVal))
  | 0, _, _ => Option.none
  | _ + 1, h, [] => some (h, [])
  | n + 1, h, (k, v) :: rest =>
      match dcopy n h v with
      | some (h1, v2) =>
          match dcopyEntries n h1 rest with
          | some (h2, rest2) => some (h2, (k, v2) :: rest2)
          | Option.none => Option.none
      | Option.none => Option.none

end

mutual

/-- Read a heap value back as a pure `PVal` tree (with fuel). -/
def readV : Nat → Heap → HVal → Option PVal
  | 0, _, _ => Option.none
  | _ + 1, _, HVal.hnone => some PVal.none
  | _ + 1, _, HVal.hbool b => some (PVal.bool b)
  | _ + 1, _, HVal.hint n => some (PVal.int n)
  | _ + 1, _, HVal.hstr s => some (PVal.str s)
  | n + 1, h, HVal.href a =>
      match h.find a with
      | some (HObj.hdict es) =>
          match readEntries n h es with
          | some es2 => some (PVal.dict es2)
          | Option.none => Option.none
      | some (HObj.hlist xs) =>
          match readVals n h xs with
          | some xs2 => some (PVal.list xs2)
          | Option.none => Option.none
      | Option.none => Option.none

/-- Read back a list object's elements. -/
def readVals : Nat → Heap → List HVal → Option (List PVal)
  | 0, _, _ => Option.none
  | _ + 1, _, [] => some []
  | n + 1, h, v :: rest =>
      match readV n h v with
      | some v2 =>
          match readVals n h rest with
          | some rest2 => some (v2 :: rest2)
          | Option.none => Option.none
      | Option.none => Option.none

/-- Read back a dict object's entries. -/
def readEntries : Nat → Heap → List (String × HVal) →
    Option (List (String × PVal))
  | 0, _, _ => Option.none
  | _ + 1, _, [] => some []
  | n + 1, h, (k, v) :: rest =>
      match readV n h v with
      | some v2 =>
          match readEntries n h rest with
          | some rest2 => some ((k, v2) :: rest2)
          | Option.none => Option.none
      | Option.none => Option.none

end

/-- Heap-level `get_theme` (`tools.py` lines 45-57): `theme in THEMES`,
then `copy.deepcopy(THEMES[theme])`; `None` models the raised exception
(name not found, or `themesRef` not a dict reference). -/
def get_theme_heap (n : Nat) (h : Heap) (themesRef : HVal) (name : String) :
    Option (Heap × HVal) :=
  match themesRef with
  | HVal.href a =>
      match h.find a with
      | some (HObj.hdict es) =>
          match hLookup es name with
          | some v => dcopy n h v
          | Option.none => Option.none
      | _ => Option.none
  | _ => Option.none

/-- Heap-level `get_skeleton` (`tools.py` lines 65-67):
`copy.deepcopy(SKELETON)`. -/
def get_skeleton_heap (n : Nat) (h : Heap) (skeletonRef : HVal) :
    Option (Heap × HVal) :=
  dcopy n h skeletonRef

/-- A concrete heap: address 0 holds a `THEMES` dict whose `light` entry
references the bundle object at address 1. -/
def h0ex : Heap :=
  ⟨[(0, HObj.hdict [("light", HVal.href 1)]),
    (1, HObj.hdict [("colors", HVal.hint 3)])], 2⟩

/-- `h0ex` after `get_theme_heap` copied the bundle to address 2. -/
def h2ex : Heap :=
  ⟨[(2, HObj.hdict [("colors", HVal.hint 3)]),
    (0, HObj.hdict [("light", HVal.href 1)]),
    (1, HObj.hdict [("colors", HVal.hint 3)])], 3⟩

/-- All entry values of a heap dict refer only below `lo`. -/
def refsBelowE (es : List (String × HVal)) (lo : Nat) : Prop :=
  ∀ p ∈ es, refsBelow p.2 lo

/-- All entry values of a heap dict refer only at or above `lo`. -/
def refsGEE (es : List (String × HVal)) (lo : Nat) : Prop :=
  ∀ p ∈ es, refsGE p.2 lo

/-- All elements of a heap list refer only below `lo`. -/
def refsBelowL (xs : List HVal) (lo : Nat) : Prop := ∀ v ∈ xs, refsBelow v lo

/-- All elements of a heap list refer only at or above `lo`. -/
def refsGEL (xs : List HVal) (lo : Nat) : Prop := ∀ v ∈ xs, refsGE v lo

/-- Post-condition of `dcopy h v = some (h2, r)`. -/
def CopyPost (h h2 : Heap) (r : HVal) : Prop :=
  heapExtend h h2 ∧ wfHeap h2 ∧ refsBelow r h2.next ∧ refsGE r h.next ∧ freshSeg h h2

/-- Post-condition of `dcopyVals h xs = some (h2, xs2)`. -/
def ValsPost (h h2 : Heap) (xs2 : List HVal) : Prop :=
  heapExtend h h2 ∧ wfHeap h2 ∧ refsBelowL xs2 h2.next ∧ refsGEL xs2 h.next ∧ freshSeg h h2

/-- Post-condition of `dcopyEntries h es = some (h2, es2)`. -/
def EntriesPost (h h2 : Heap) (es2 : List (String × HVal)) : Prop :=
  heapExtend h h2 ∧ wfHeap h2 ∧ refsBelowE es2 h2.next ∧ refsGEE es2 h.next ∧ freshSeg h h2

@[simp]
theorem updL_nil (b : Dict) : updL b [] = b := by
  simp [updL]

theorem updL_cons (b : Dict) (k : String) (v : PVal) (rest : Dict) :
    updL b ((k, v) :: rest) = updL (dSet b k (update (lookupD b k) v)) rest := by
  simp [updL]

@[simp]
theorem update_dict_dict (b o : Dict) :
    update (PVal.dict b) (PVal.dict o) = PVal.dict (updL b o) := by
  simp [update]

@[simp]
theorem dictKeys_nil : dictKeys [] = [] := rfl

@[simp]
theorem dictKeys_cons (k : String) (v : PVal) (tl : Dict) :
    dictKeys ((k, v) :: tl) = k :: dictKeys tl := rfl

@[simp]
theorem lookup_nil (k : String) : lookup [] k = Option.none := rfl

@[simp]
theorem lookup_cons (k' : String) (v : PVal) (rest : Dict) (k : String) :
    lookup ((k', v) :: rest) k = if k' = k then some v else lookup rest k := rfl

@[simp]
theorem lookup_dSet_self (d : Dict) (k : String) (v : PVal) :
    lookup (dSet d k v) k = some v := by
  induction d with
  | nil => simp [dSet]
  | cons hd tl ih =>
      obtain ⟨k', v'⟩ := hd
      by_cases h : k' = k <;> simp [dSet, h, ih]

theorem lookup_dSet_ne (d : Dict) (k m : String) (v : PVal) (h : k ≠ m) :
    lookup (dSet d k v) m = lookup d m := by
  induction d with
  | nil => simp [dSet, h]
  | cons hd tl ih =>
      obtain ⟨k', v'⟩ := hd
      by_cases hk : k' = k
      · subst hk
        simp [dSet, h]
      · simp [dSet, hk, ih]

@[simp]
theorem mem_dictKeys_dSet (d : Dict) (k m : String) (v : PVal) :
    m ∈ dictKeys (dSet d k v) ↔ m ∈ dictKeys d ∨ m = k := by
  induction d with
  | nil => simp [dSet, eq_comm]
  | cons hd tl ih =>
      obtain ⟨k', v'⟩ := hd
      by_cases hk : k' = k
      · subst hk
        simp [dSet]
        tauto
      · simp [dSet, hk, ih]
        tauto

theorem dictKeys_dSet_mem (d : Dict) (k : String) (v : PVal)
    (h : k ∈ dictKeys d) : dictKeys (dSet d k v) = dictKeys d := by
  induction d with
  | nil => simp at h
  | cons hd tl ih =>
      obtain ⟨k', v'⟩ := hd
      by_cases hk : k' = k
      · subst hk
        simp [dSet]
      · simp [eq_comm] at h
        rcases h with h | h
        · exact absurd h.symm hk
        · simp [dSet, hk, ih h]

theorem lookup_isSome_iff_mem (d : Dict) (k : String) :
    (lookup d k).isSome = true ↔ k ∈ dictKeys d := by
  induction d with
  | nil => simp
  | cons hd tl ih =>
      obtain ⟨k', v'⟩ := hd
      by_cases h : k' = k
      · simp [h]
      · simp only [lookup_cons, if_neg h, dictKeys_cons, List.mem_cons, ih]
        constructor
        · exact Or.inr
        · rintro (hk | hk)
          · exact absurd hk.symm h
          · exact hk

theorem lookup_eq_none_iff_not_mem (d : Dict) (k : String) :
    lookup d k = Option.none ↔ k ∉ dictKeys d := by
  rw [← lookup_isSome_iff_mem]
  cases lookup d k <;> simp

theorem mem_dictKeys_updL (b o : Dict) (m : String) :
    m ∈ dictKeys (updL b o) ↔ m ∈ dictKeys b ∨ m ∈ dictKeys o := by
  induction o generalizing b with
  | nil => simp
  | cons hd tl ih =>
      obtain ⟨k, v⟩ := hd
      rw [updL_cons, ih]
      simp
      tauto

/-- Keys that do not occur in the override keep their base binding. -/
theorem lookup_updL_not_mem (b o : Dict) (m : String) (h : m ∉ dictKeys o) :
    lookup (updL b o) m = lookup b m := by
  induction o generalizing b with
  | nil => simp
  | cons hd tl ih =>
      obtain ⟨k, v⟩ := hd
      simp at h
      rw [updL_cons, ih _ h.2, lookup_dSet_ne _ _ _ _ (fun hk => h.1 hk.symm)]

@[simp]
theorem ok_bind {α β : Type} (a : α) (f : α → Except String β) :
    (Except.ok a >>= f) = f a := rfl

@[simp]
theorem error_bind {α β : Type} (e : String) (f : α → Except String β) :
    ((Except.error e : Except String α) >>= f) = Except.error e := rfl

@[simp]
theorem pure_eq_ok {α : Type} (a : α) : (pure a : Except String α) = Except.ok a := rfl

@[simp]
theorem isErr_ok {α : Type} (a : α) : isErr (Except.ok a) = false := rfl

@[simp]
theorem isErr_error {α : Type} (e : String) :
    isErr (Except.error e : Except String α) = true := rfl

theorem isErr_false_iff {α : Type} (x : Except String α) :
    isErr x = false ↔ ∃ a, x = Except.ok a := by
  cases x <;> simp [isErr]

theorem checkKeys_eq_ok_iff (valid ks : List String) :
    checkKeys valid ks = Except.ok () ↔ ∀ k ∈ ks, k ∈ valid := by
  induction ks with
  | nil => simp [checkKeys]
  | cons k rest ih =>
      by_cases h : k ∈ valid <;> simp [checkKeys, h, ih]

theorem isErr_checkKeys_iff (valid ks : List String) :
    isErr (checkKeys valid ks) = true ↔ ∃ k ∈ ks, k ∉ valid := by
  induction ks with
  | nil => simp [checkKeys]
  | cons k rest ih =>
      by_cases h : k ∈ valid <;> simp [checkKeys, h, ih]

theorem checkKeys_cases (valid ks : List String) :
    checkKeys valid ks = Except.ok () ∨ isErr (checkKeys valid ks) = true := by
  cases h : checkKeys valid ks with
  | ok u => cases u; exact Or.inl rfl
  | error e => exact Or.inr rfl

/-- Keys bound in the override are bound in the merge to the override
value, merged recursively into the base value by `update` when both are
dicts. -/
theorem lookup_updL_mem : ∀ (o b : Dict), (dictKeys o).Nodup → ∀ (k : String) (v : PVal),
    lookup o k = some v →
    lookup (updL b o) k = some (update (lookupD b k) v) := by
  intro o
  induction o with
  | nil =>
      intro b _ k v hk
      simp at hk
  | cons hd tl ih =>
      rintro b ho k v hk
      obtain ⟨k', v'⟩ := hd
      rw [updL_cons]
      rw [dictKeys_cons, List.nodup_cons] at ho
      by_cases h : k' = k
      · subst h
        rw [lookup_cons, if_pos rfl] at hk
        injection hk with hv
        subst hv
        rw [lookup_updL_not_mem _ _ _ ho.1, lookup_dSet_self]
      · rw [lookup_cons, if_neg h] at hk
        rw [ih _ ho.2 _ _ hk]
        simp only [lookupD, lookup_dSet_ne _ _ _ _ h]


/-- Splitting a key-validation prefix off an error analysis. -/
theorem isErr_checkKeys_bind {α : Type} (valid ks : List String) (f : Unit → Except String α) :
    isErr (checkKeys valid ks >>= f) = true ↔
      (∃ k ∈ ks, k ∉ valid) ∨ ((∀ k ∈ ks, k ∈ valid) ∧ isErr (f ()) = true) := by
  rcases checkKeys_cases valid ks with h | h
  · rw [h, ok_bind]
    rw [checkKeys_eq_ok_iff] at h
    constructor
    · intro hf
      exact Or.inr ⟨h, hf⟩
    · rintro (⟨k, hk, hv⟩ | ⟨_, hf⟩)
      · exact absurd (h k hk) hv
      · exact hf
  · obtain ⟨e, he⟩ : ∃ e, checkKeys valid ks = Except.error e := by
      cases hx : checkKeys valid ks with
      | ok u => rw [hx] at h; simp at h
      | error e => exact ⟨e, rfl⟩
    rw [he, error_bind]
    have hbad := (isErr_checkKeys_iff valid ks).mp h
    simp only [isErr_error, true_iff]
    exact Or.inl hbad

/-- Absorb the "all earlier keys were valid" side condition. -/
theorem exists_bad_or_all_and (ks valid : List String) (P : Prop) :
    ((∃ k ∈ ks, k ∉ valid) ∨ ((∀ k ∈ ks, k ∈ valid) ∧ P)) ↔
      ((∃ k ∈ ks, k ∉ valid) ∨ P) := by
  constructor
  · rintro (h | ⟨-, h⟩)
    · exact Or.inl h
    · exact Or.inr h
  · rintro (h | h)
    · exact Or.inl h
    · by_cases hall : ∀ k ∈ ks, k ∈ valid
      · exact Or.inr ⟨hall, h⟩
      · push_neg at hall
        exact Or.inl hall

@[simp]
theorem lookup_dSet (d : Dict) (k : String) (v : PVal) (m : String) :
    lookup (dSet d k v) m = if k = m then some v else lookup d m := by
  by_cases h : k = m
  · subst h
    simp
  · simp [h, lookup_dSet_ne _ _ _ _ h]

/-- `make_colors` raises exactly when a key of the overrides or of the
merged result is outside `_VALID_COLORS`. -/
theorem isErr_make_colors_iff (b o : Dict) :
    isErr (make_colors b o) = true ↔
      (∃ k ∈ dictKeys o, k ∉ _VALID_COLORS) ∨
      (∃ k ∈ dictKeys (updL b o), k ∉ _VALID_COLORS) := by
  simp only [make_colors, isErr_checkKeys_bind, pure_eq_ok, isErr_ok, and_false, or_false]
  rw [exists_bad_or_all_and]
  simp

/-- `make_additions` raises exactly when a key of the overrides or of the
merged result is outside `_VALID_ADDITIONS`. -/
theorem isErr_make_additions_iff (b o : Dict) :
    isErr (make_additions b o) = true ↔
      (∃ k ∈ dictKeys o, k ∉ _VALID_ADDITIONS) ∨
      (∃ k ∈ dictKeys (updL b o), k ∉ _VALID_ADDITIONS) := by
  simp only [make_additions, isErr_checkKeys_bind, pure_eq_ok, isErr_ok, and_false, or_false]
  rw [exists_bad_or_all_and]
  simp

theorem isDict_iff (v : PVal) : v.isDict = true ↔ ∃ d, v = PVal.dict d := by
  cases v <;> simp [PVal.isDict]

theorem pSetItem_not_dict (v : PVal) (s : String) (x : PVal) (h : v.isDict = false) :
    pSetItem v s x = Except.error "TypeError: object does not support item assignment" := by
  cases v <;> simp [PVal.isDict, pSetItem] at h ⊢

/-- `_expand` raises exactly when one of the elementary entries
`candlestick`/`line`/`bar` is missing, or `line` is not a dict. -/
theorem isErr_expandTraces_iff (b : Dict) :
    isErr (expandTraces b) = true ↔
      lookup b "candlestick" = Option.none ∨ lookup b "line" = Option.none ∨
      (∃ lv, lookup b "line" = some lv ∧ lv.isDict = false) ∨
      lookup b "bar" = Option.none := by
  rcases h1 : lookup b "candlestick" with _ | c
  · apply iff_of_true _ (Or.inl rfl)
    simp [expandTraces, dGet, h1]
  · rcases h2 : lookup b "line" with _ | lv
    · apply iff_of_true _ (Or.inr (Or.inl rfl))
      simp [expandTraces, dGet, h1, h2]
    · by_cases hdict : lv.isDict = true
      · obtain ⟨sub, rfl⟩ := (isDict_iff lv).mp hdict
        rcases h3 : lookup b "bar" with _ | bar
        · apply iff_of_true _ (Or.inr (Or.inr (Or.inr rfl)))
          simp [expandTraces, dGet, h1, h2, pSetItem, h3]
        · apply iff_of_false
          · simp [expandTraces, dGet, h1, h2, pSetItem, h3]
          · rintro (hc | hl | ⟨lv', hlv', hnd⟩ | hb)
            · exact Option.noConfusion hc
            · exact Option.noConfusion hl
            · injection hlv' with he
              rw [← he] at hnd
              simp [PVal.isDict] at hnd
            · exact Option.noConfusion hb
      · rw [Bool.not_eq_true] at hdict
        apply iff_of_true _ (Or.inr (Or.inr (Or.inl ⟨lv, rfl, hdict⟩)))
        simp [expandTraces, dGet, h1, h2, pSetItem_not_dict _ _ _ hdict]

/-- The key set after a successful `_expand`: the original keys plus the
derived trace names. -/
theorem mem_dictKeys_expandTraces (b e : Dict) (he : expandTraces b = Except.ok e)
    (m : String) :
    m ∈ dictKeys e ↔ m ∈ dictKeys b ∨ m ∈ expandKeys := by
  rcases h1 : lookup b "candlestick" with _ | c
  · simp [expandTraces, dGet, h1] at he
  · rcases h2 : lookup b "line" with _ | lv
    · simp [expandTraces, dGet, h1, h2] at he
    · by_cases hdict : lv.isDict = true
      · obtain ⟨sub, rfl⟩ := (isDict_iff lv).mp hdict
        rcases h3 : lookup b "bar" with _ | bar
        · simp [expandTraces, dGet, h1, h2, pSetItem, h3] at he
        · simp [expandTraces, dGet, h1, h2, pSetItem, h3] at he
          subst he
          simp [expandKeys, mem_dictKeys_dSet]
          tauto
      · rw [Bool.not_eq_true] at hdict
        simp [expandTraces, dGet, h1, h2, pSetItem_not_dict _ _ _ hdict] at he

theorem traceModOk_spec (b : Dict) (k : String) :
    traceModOk b k = true ↔
      ∃ sub lineSub, lookup b k = some (PVal.dict sub) ∧
        lookup sub "line" = some lineSub := by
  rcases h : lookup b k with _ | lv
  · simp [traceModOk, h]
  · cases lv <;> simp [traceModOk, h, Option.isSome_iff_exists]

/-- The modifier loop raises exactly when some override key has no
dict-with-`line` entry in the (expanded) base traces. -/
theorem isErr_applyTraceMods_iff : ∀ (o b : Dict),
    isErr (applyTraceMods b o) = true ↔ ∃ p ∈ o, traceModOk b p.1 = false := by
  intro o
  induction o with
  | nil =>
      intro b
      simp [applyTraceMods]
  | cons hd tl ih =>
      intro b
      obtain ⟨k, v⟩ := hd
      by_cases hk : traceModOk b k = true
      · obtain ⟨sub, lineSub, hle, hline⟩ := (traceModOk_spec b k).mp hk
        have hstable : ∀ m,
            traceModOk (dSet b k (PVal.dict (dSet sub "line" (update lineSub v)))) m =
              traceModOk b m := by
          intro m
          by_cases hm : k = m
          · subst hm
            simp [traceModOk, hle, hline]
          · simp [traceModOk, lookup_dSet_ne _ _ _ _ hm]
        simp only [applyTraceMods, dGet, hle, pGetItem, hline, pSetItem, ok_bind]
        rw [ih]
        constructor
        · rintro ⟨p, hp, hbad⟩
          refine ⟨p, List.mem_cons_of_mem _ hp, ?_⟩
          rw [← hstable p.1]
          exact hbad
        · rintro ⟨p, hp, hbad⟩
          rcases List.mem_cons.mp hp with rfl | hp2
          · rw [hk] at hbad
            exact Bool.noConfusion hbad
          · refine ⟨p, hp2, ?_⟩
            rw [hstable p.1]
            exact hbad
      · rw [Bool.not_eq_true] at hk
        apply iff_of_true _ ⟨(k, v), List.mem_cons_self _ _, hk⟩
        rcases hle : lookup b k with _ | lv
        · simp [applyTraceMods, dGet, hle]
        · cases lv
          case dict sub =>
            have hnone : lookup sub "line" = Option.none := by
              rcases hli : lookup sub "line" with _ | x
              · rfl
              · have ht : traceModOk b k = true := by simp [traceModOk, hle, hli]
                rw [hk] at ht
                exact Bool.noConfusion ht
            simp [applyTraceMods, dGet, hle, pGetItem, hnone]
          all_goals simp [applyTraceMods, dGet, hle, pGetItem]

/-- The modifier loop only rewrites values under existing keys. -/
theorem dictKeys_applyTraceMods : ∀ (o b b2 : Dict),
    applyTraceMods b o = Except.ok b2 → dictKeys b2 = dictKeys b := by
  intro o
  induction o with
  | nil =>
      intro b b2 h
      simp [applyTraceMods] at h
      rw [h]
  | cons hd tl ih =>
      intro b b2 h
      obtain ⟨k, v⟩ := hd
      rcases hle : lookup b k with _ | lv
      · simp [applyTraceMods, dGet, hle] at h
      · cases lv
        case dict sub =>
          rcases hli : lookup sub "line" with _ | lineSub
          · simp [applyTraceMods, dGet, hle, pGetItem, hli] at h
          · simp only [applyTraceMods, dGet, hle, pGetItem, hli, pSetItem, ok_bind] at h
            have hkeys := ih _ _ h
            rw [hkeys, dictKeys_dSet_mem]
            apply (lookup_isSome_iff_mem b k).mp
            rw [hle]
            rfl
        all_goals simp [applyTraceMods, dGet, hle, pGetItem] at h

/-- `make_traces` raises exactly when a key of the overrides or of the
base traces is outside `_VALID_TRACES`, or `_expand` raises, or the
modifier loop hits an entry without a `line` sub-dict. -/
theorem isErr_make_traces_iff (b o : Dict) :
    isErr (make_traces b o) = true ↔
      (∃ k ∈ dictKeys o, k ∉ _VALID_TRACES) ∨
      (∃ k ∈ dictKeys b, k ∉ _VALID_TRACES) ∨
      isErr (expandTraces b) = true ∨
      (∃ e, expandTraces b = Except.ok e ∧ ∃ p ∈ o, traceModOk e p.1 = false) := by
  simp only [make_traces]
  rw [isErr_checkKeys_bind, exists_bad_or_all_and]
  apply or_congr Iff.rfl
  rcases hexp : expandTraces b with err | e
  · simp
  · rw [ok_bind]
    rcases hmods : applyTraceMods e o with err2 | b2
    · rw [error_bind]
      simp only [isErr_error, true_iff]
      refine Or.inr (Or.inr ⟨e, rfl, ?_⟩)
      apply (isErr_applyTraceMods_iff o e).mp
      rw [hmods]
      rfl
    · rw [ok_bind, isErr_checkKeys_bind, exists_bad_or_all_and]
      simp only [pure_eq_ok, isErr_ok, Bool.false_eq_true, or_false]
      have hkeys := dictKeys_applyTraceMods o e b2 hmods
      have hmem := fun m => mem_dictKeys_expandTraces b e hexp m
      have hnomods : ¬ ∃ p ∈ o, traceModOk e p.1 = false := by
        intro hcon
        have hc2 := (isErr_applyTraceMods_iff o e).mpr hcon
        rw [hmods] at hc2
        simp at hc2
      constructor
      · rintro ⟨k, hk, hbad⟩
        rw [hkeys] at hk
        rcases (hmem k).mp hk with hkb | hkd
        · exact Or.inl ⟨k, hkb, hbad⟩
        · exfalso
          apply hbad
          have hvalid : ∀ m ∈ expandKeys, m ∈ _VALID_TRACES := by decide
          exact hvalid k hkd
      · rintro (⟨k, hk, hbad⟩ | hfalse | ⟨e2, he2, hp⟩)
        · refine ⟨k, ?_, hbad⟩
          rw [hkeys]
          exact (hmem k).mpr (Or.inl hk)
        · simp at hfalse
        · injection he2 with hee
          subst hee
          exact absurd hp hnomods

theorem checkKeys_ok_or_error (valid ks : List String) :
    checkKeys valid ks = Except.ok () ∨ ∃ e, checkKeys valid ks = Except.error e := by
  cases h : checkKeys valid ks with
  | ok u => cases u; exact Or.inl rfl
  | error e => exact Or.inr ⟨e, rfl⟩

/-- `make_layout` raises exactly when a key of the theme layout or of the
final layout is outside `_VALID_LAYOUT`, or `dimensions` is truthy (the
misspelled `bsae_layout`). -/
theorem isErr_make_layout_iff (b l : Dict) (cl : Option Dict)
    (lg hm an sh ti dim wd ht mg : PVal) :
    isErr (make_layout b l cl lg hm an sh ti dim wd ht mg) = true ↔
      (∃ k ∈ dictKeys l, k ∉ _VALID_LAYOUT) ∨ dim.truthy = true ∨
      (∃ k ∈ dictKeys (mlStage2 (mlStage1 (updL b l) hm an sh ti dim wd ht) ht wd mg),
        k ∉ _VALID_LAYOUT) := by
  simp only [make_layout]
  rw [isErr_checkKeys_bind, exists_bad_or_all_and]
  apply or_congr Iff.rfl
  by_cases hdim : dim.truthy = true
  · simp [hdim]
  · rw [Bool.not_eq_true] at hdim
    simp only [hdim, Bool.false_eq_true, if_false, false_or]
    rw [isErr_checkKeys_bind, exists_bad_or_all_and]
    simp

/-- Inversion for a successful `make_layout`: `dimensions` was falsy and
the result is the staged layout. -/
theorem make_layout_ok (b l : Dict) (cl : Option Dict)
    (lg hm an sh ti dim wd ht mg : PVal) (d : Dict)
    (hok : make_layout b l cl lg hm an sh ti dim wd ht mg = Except.ok d) :
    dim.truthy = false ∧
      d = mlStage2 (mlStage1 (updL b l) hm an sh ti dim wd ht) ht wd mg := by
  simp only [make_layout] at hok
  rcases checkKeys_ok_or_error _VALID_LAYOUT (dictKeys l) with hc | ⟨e, he⟩
  · rw [hc, ok_bind] at hok
    by_cases hdim : dim.truthy = true
    · simp [hdim] at hok
    · rw [Bool.not_eq_true] at hdim
      simp only [hdim, Bool.false_eq_true, if_false] at hok
      rcases checkKeys_ok_or_error _VALID_LAYOUT
          (dictKeys (mlStage2 (mlStage1 (updL b l) hm an sh ti dim wd ht) ht wd mg)) with
        hc2 | ⟨e2, he2⟩
      · rw [hc2, ok_bind] at hok
        simp only [pure_eq_ok, Except.ok.injEq] at hok
        exact ⟨hdim, hok.symm⟩
      · rw [he2, error_bind] at hok
        exact Except.noConfusion hok
  · rw [he, error_bind] at hok
    exact Except.noConfusion hok

theorem lookup_mlStage2_showlegend (b : Dict) (ht wd mg : PVal) :
    lookup (mlStage2 b ht wd mg) "showlegend" = lookup b "showlegend" := by
  by_cases h1 : ht.truthy = true <;> by_cases h2 : wd.truthy = true <;>
    by_cases h3 : mg.truthy = true <;> simp [mlStage2, h1, h2, h3]

theorem lookup_mlStage1_showlegend (b : Dict) (hm an sh ti dim wd ht : PVal) :
    lookup (mlStage1 b hm an sh ti dim wd ht) "showlegend" = some (PVal.bool true) := by
  by_cases h1 : hm.truthy = true <;> by_cases h2 : an.truthy = true <;>
    by_cases h3 : sh.truthy = true <;> by_cases h4 : ti.truthy = true <;>
    by_cases h5 : (dim.truthy || ht.truthy || wd.truthy) = true <;>
    simp [mlStage1, h1, h2, h3, h4, h5]

theorem bind_eq_ok {α β : Type} (x : Except String α) (f : α → Except String β) (b : β) :
    (x >>= f) = Except.ok b ↔ ∃ a, x = Except.ok a ∧ f a = Except.ok b := by
  cases x <;> simp

/-- C9: whenever `make_layout` returns, the returned layout has
`showlegend` equal to `True`, regardless of the `legend` argument (the
debug line `legend = True` overrides it before the toggle is read); in
particular `legend=False` does not hide the legend. -/
theorem make_layout_showlegend_always_true
    (b l : Dict) (cl : Option Dict) (lg hm an sh ti dim wd ht mg : PVal) (d : Dict)
    (hok : make_layout b l cl lg hm an sh ti dim wd ht mg = Except.ok d) :
    lookup d "showlegend" = some (PVal.bool true) := by
  obtain ⟨hdim, rfl⟩ := make_layout_ok b l cl lg hm an sh ti dim wd ht mg d hok
  rw [lookup_mlStage2_showlegend, lookup_mlStage1_showlegend]

theorem make_layout_showlegend_always_true_witness :
    make_layout [] [] Option.none (PVal.bool false) PVal.none PVal.none PVal.none
        PVal.none PVal.none PVal.none PVal.none PVal.none =
      Except.ok [("showlegend", PVal.bool true)] ∧
    lookup [("showlegend", PVal.bool true)] "showlegend" = some (PVal.bool true) := by
  have hrun : make_layout [] [] Option.none (PVal.bool false) PVal.none PVal.none PVal.none
      PVal.none PVal.none PVal.none PVal.none PVal.none =
      Except.ok [("showlegend", PVal.bool true)] := by
    simp [make_layout, checkKeys, mlStage1, mlStage2, PVal.truthy, dictKeys, _VALID_LAYOUT, dSet]
  exact ⟨hrun, make_layout_showlegend_always_true _ _ _ _ _ _ _ _ _ _ _ _ _ hrun⟩

/-- C7: whenever `get_template` returns, its result is a dict with
exactly the four keys `colors`, `traces`, `additions`, `layout`, whose
values are the outputs of `make_colors`, `make_traces`, `make_additions`
and `make_layout` on the skeleton and theme components (the theme being
the configured default, since every truthy `theme` argument raises). -/
theorem get_template_ok_shape (themes skeleton : Dict) (configTheme : String)
    (theme layout legend hovermode annotations shapes title dimensions width height margin : PVal)
    (kwargs : Dict) (t : Dict)
    (hok : get_template themes skeleton configTheme theme layout legend hovermode annotations
        shapes title dimensions width height margin kwargs = Except.ok t) :
    ∃ th qs qt cl2 an2 sh2 dim2 mg2 fc ft fa fl,
      theme.truthy = false ∧
      get_theme themes configTheme = Except.ok th ∧
      splitSkeleton (get_skeleton skeleton) = Except.ok qs ∧
      splitTheme th = Except.ok qt ∧
      make_colors qs.1 qt.1 = Except.ok fc ∧
      make_traces qs.2.1 qt.2.1 = Except.ok ft ∧
      make_additions qs.2.2.1 qt.2.2.1 = Except.ok fa ∧
      make_layout qs.2.2.2 qt.2.2.2 cl2 legend hovermode an2 sh2 title dim2 width height mg2 =
        Except.ok fl ∧
      t = [("colors", PVal.dict fc), ("traces", PVal.dict ft),
           ("additions", PVal.dict fa), ("layout", PVal.dict fl)] ∧
      dictKeys t = ["colors", "traces", "additions", "layout"] := by
  simp only [get_template, bind_eq_ok] at hok
  obtain ⟨u0, hkw, th, hth, cl2, hcl, u1, hlg, u2, hhm, an2, han, sh2, hsh, u3, hti,
    dim2, hdim, u4, hwd, u5, hht, mg2, hmg, qs, hqs, qt, hqt, fc, hfc, ft, hft,
    fa, hfa, fl, hfl, hres⟩ := hok
  simp only [pure_eq_ok, Except.ok.injEq] at hres
  subst hres
  by_cases htr : theme.truthy = true
  · rw [themeStep, htr] at hth
    simp at hth
  · rw [Bool.not_eq_true] at htr
    rw [themeStep, htr] at hth
    simp at hth
    exact ⟨th, qs, qt, cl2, an2, sh2, dim2, mg2, fc, ft, fa, fl, htr, hth, hqs, hqt,
      hfc, hft, hfa, hfl, rfl, rfl⟩

theorem get_template_ok_shape_witness :
    ∃ t, get_template themes0 skeleton0 "light" PVal.none PVal.none PVal.none PVal.none
        PVal.none PVal.none PVal.none PVal.none PVal.none PVal.none PVal.none [] =
        Except.ok t ∧
      dictKeys t = ["colors", "traces", "additions", "layout"] := by
  have hrun : get_template themes0 skeleton0 "light" PVal.none PVal.none PVal.none PVal.none
      PVal.none PVal.none PVal.none PVal.none PVal.none PVal.none PVal.none [] =
      Except.ok template0 := by
    simp [get_template, themes0, skeleton0, theme0, template0, get_skeleton, get_theme, checkKeys,
      dictKeys, PVal.truthy, pyEqFalse, coerceMargin, splitSkeleton, splitTheme, make_colors,
      make_additions, make_traces, applyTraceMods, expandTraces, btraces0, btraces0x, dGet, dSet,
      pSetItem, make_layout, mlStage1, mlStage2, themeStep, customLayoutStep, legendStep,
      hovermodeStep, seqStep, titleStep, dimensionsStep, intStep, _VALID_TRACES, _VALID_COLORS,
      _VALID_ADDITIONS, _VALID_LAYOUT, _VALID_TEMPLATE_KWARGS]
  obtain ⟨th, qs, qt, cl2, an2, sh2, dim2, mg2, fc, ft, fa, fl, h⟩ :=
    get_template_ok_shape themes0 skeleton0 "light" PVal.none PVal.none PVal.none PVal.none
      PVal.none PVal.none PVal.none PVal.none PVal.none PVal.none PVal.none [] template0 hrun
  exact ⟨template0, hrun, h.2.2.2.2.2.2.2.2.2⟩

/-- C1 (code evaluation): calling `get_template` with a string theme that
names a theme in `THEMES` raises `NameError` — line 340's condition calls
the undefined name `instance` — instead of returning the template. -/
theorem get_template_string_theme_raises :
    get_template themes0 skeleton0 "light" (PVal.str "light") PVal.none PVal.none PVal.none
      PVal.none PVal.none PVal.none PVal.none PVal.none PVal.none PVal.none [] =
      Except.error "NameError: name instance is not defined" := by
  have htr : (PVal.str "light").truthy = true := by decide
  simp [get_template, themeStep, htr, checkKeys, dictKeys, _VALID_TEMPLATE_KWARGS]

/-- C3 (code evaluation): passing a 2-tuple as `dimensions` is rejected
by the argument validation (`len(dimensions) == 2` where `!= 2` was
intended), so `get_template` raises instead of setting width/height. -/
theorem get_template_two_tuple_dimensions_raises :
    get_template themes0 skeleton0 "light" PVal.none PVal.none PVal.none PVal.none PVal.none
      PVal.none PVal.none (PVal.tuple [PVal.int 500, PVal.int 300]) PVal.none PVal.none
      PVal.none [] = Except.error "Invalid dimensions" := by
  simp [get_template, themeStep, customLayoutStep, legendStep, hovermodeStep, seqStep,
    titleStep, dimensionsStep, get_theme, themes0, theme0, checkKeys, dictKeys, PVal.truthy,
    pyEqFalse, PVal.isTuple, pyLen, _VALID_TEMPLATE_KWARGS]

/-- C4 (counterexample): the empty tuple is a tuple whose length is
neither 4 nor 5 and is not a dict, yet `get_template` does not raise on
`margin=()` — it is falsy, so the `if margin:` guard skips the whole
validation and the call succeeds. -/
theorem get_template_empty_tuple_margin_no_raise :
    get_template themes0 skeleton0 "light" PVal.none PVal.none PVal.none PVal.none
      PVal.none PVal.none PVal.none PVal.none PVal.none PVal.none (PVal.tuple []) [] =
      Except.ok template0 := by
  simp [get_template, themes0, skeleton0, theme0, template0, get_skeleton, get_theme, checkKeys,
    dictKeys, PVal.truthy, pyEqFalse, coerceMargin, splitSkeleton, splitTheme, make_colors,
    make_additions, make_traces, applyTraceMods, expandTraces, btraces0, btraces0x, dGet, dSet,
    pSetItem, make_layout, mlStage1, mlStage2, themeStep, customLayoutStep, legendStep,
    hovermodeStep, seqStep, titleStep, dimensionsStep, intStep, _VALID_TRACES, _VALID_COLORS,
    _VALID_ADDITIONS, _VALID_LAYOUT, _VALID_TEMPLATE_KWARGS]

/-- C4 (amended): for a truthy margin, a dict passes unchanged, a 4-tuple
becomes `l/r/b/t`, a 5-tuple additionally maps `pad`, any other truthy
tuple and any truthy non-dict non-tuple raises; falsy margins (among them
the empty tuple, empty dict, `None`, `False`, `0`) bypass the validation
unchanged. -/
theorem coerceMargin_characterization (m : PVal) :
    (∀ d, m = PVal.dict d → coerceMargin m = Except.ok m) ∧
    (∀ a b c d, m = PVal.tuple [a, b, c, d] →
        coerceMargin m =
          Except.ok (PVal.dict [("l", a), ("r", b), ("b", c), ("t", d)])) ∧
    (∀ a b c d e, m = PVal.tuple [a, b, c, d, e] →
        coerceMargin m =
          Except.ok (PVal.dict [("l", a), ("r", b), ("b", c), ("t", d), ("pad", e)])) ∧
    (∀ xs, m = PVal.tuple xs → xs ≠ [] → xs.length ≠ 4 → xs.length ≠ 5 →
        coerceMargin m = Except.error "Invalid margin") ∧
    (m.truthy = true → m.isDict = false → m.isTuple = false →
        coerceMargin m = Except.error "Invalid margin") ∧
    (m.truthy = false → coerceMargin m = Except.ok m) := by
  refine ⟨?_, ?_, ?_, ?_, ?_, ?_⟩
  · rintro d rfl
    by_cases hd : (PVal.dict d).truthy = true <;> simp [coerceMargin, hd]
  · rintro a b c d rfl
    simp [coerceMargin, PVal.truthy]
  · rintro a b c d e rfl
    simp [coerceMargin, PVal.truthy]
  · rintro xs rfl hne h4 h5
    obtain ⟨x, rest, rfl⟩ : ∃ x rest, xs = x :: rest := by
      cases xs with
      | nil => exact absurd rfl hne
      | cons x rest => exact ⟨x, rest, rfl⟩
    simp only [coerceMargin, PVal.truthy, List.isEmpty_cons, Bool.not_false, if_true]
    rw [if_neg h4, if_neg h5]
  · intro htr hd htp
    cases m <;> simp [coerceMargin, PVal.truthy, PVal.isDict, PVal.isTuple] at htr hd htp ⊢ <;>
      try assumption
  · intro htr
    simp [coerceMargin, htr]

theorem coerceMargin_characterization_witness :
    coerceMargin (PVal.tuple [PVal.int 1, PVal.int 2, PVal.int 3, PVal.int 4]) =
      Except.ok (PVal.dict
        [("l", PVal.int 1), ("r", PVal.int 2), ("b", PVal.int 3), ("t", PVal.int 4)]) ∧
    coerceMargin (PVal.tuple [PVal.int 1]) = Except.error "Invalid margin" ∧
    coerceMargin (PVal.str "x") = Except.error "Invalid margin" ∧
    coerceMargin (PVal.tuple []) = Except.ok (PVal.tuple []) := by
  refine ⟨(coerceMargin_characterization _).2.1 _ _ _ _ rfl,
    (coerceMargin_characterization _).2.2.2.1 [PVal.int 1] rfl (List.cons_ne_nil _ _)
      (by decide) (by decide),
    (coerceMargin_characterization _).2.2.2.2.1 (by decide) (by decide) (by decide),
    (coerceMargin_characterization _).2.2.2.2.2 (by decide)⟩

/-- C10 (counterexample): the empty tuple is neither a string nor `None`,
yet it passes the hovermode validation and the call returns the default
template — falsy values other than `False` (and other than numeric zero)
skip the check entirely. -/
theorem get_template_hovermode_empty_tuple_ok :
    get_template themes0 skeleton0 "light" PVal.none PVal.none PVal.none (PVal.tuple [])
      PVal.none PVal.none PVal.none PVal.none PVal.none PVal.none PVal.none [] =
      Except.ok template0 := by
  simp [get_template, themes0, skeleton0, theme0, template0, get_skeleton, get_theme, checkKeys,
    dictKeys, PVal.truthy, pyEqFalse, coerceMargin, splitSkeleton, splitTheme, make_colors,
    make_additions, make_traces, applyTraceMods, expandTraces, btraces0, btraces0x, dGet, dSet,
    pSetItem, make_layout, mlStage1, mlStage2, themeStep, customLayoutStep, legendStep,
    hovermodeStep, seqStep, titleStep, dimensionsStep, intStep, _VALID_TRACES, _VALID_COLORS,
    _VALID_ADDITIONS, _VALID_LAYOUT, _VALID_TEMPLATE_KWARGS]

@[simp]
theorem truthy_none : PVal.none.truthy = false := rfl

theorem hovermodeStep_eq (hm : PVal) :
    hovermodeStep hm =
      if ((hm.truthy || pyEqFalse hm) && !hm.isStr) = true
      then Except.error "Invalid hovermode" else Except.ok () := by
  by_cases h1 : (hm.truthy || pyEqFalse hm) = true <;> by_cases h2 : hm.isStr = true <;>
    simp [hovermodeStep, h1, h2]

set_option maxHeartbeats 1600000 in
/-- C10 (amended): with every other argument at its default,
`get_template` raises on `hovermode` exactly when `hovermode` is truthy
or compares equal to `False` (booleans and numeric zero do) while not
being a string; strings, `None`, and falsy non-numeric values such as
empty containers pass the validation. -/
theorem get_template_hovermode_validation (hm : PVal) :
    isErr (get_template themes0 skeleton0 "light" PVal.none PVal.none PVal.none hm PVal.none
        PVal.none PVal.none PVal.none PVal.none PVal.none PVal.none []) =
      ((hm.truthy || pyEqFalse hm) && !hm.isStr) := by
  by_cases hcond : ((hm.truthy || pyEqFalse hm) && !hm.isStr) = true
  · have hstep : hovermodeStep hm = Except.error "Invalid hovermode" := by
      rw [hovermodeStep_eq, if_pos hcond]
    rw [hcond]
    simp [get_template, themeStep, get_theme, themes0, customLayoutStep, legendStep, hstep,
      checkKeys, dictKeys, PVal.truthy, _VALID_TEMPLATE_KWARGS]
  · have hstep : hovermodeStep hm = Except.ok () := by
      rw [hovermodeStep_eq, if_neg hcond]
    have hcond2 := hcond
    rw [Bool.not_eq_true] at hcond2
    rw [hcond2]
    by_cases hhm : hm.truthy = true
    · simp [get_template, themes0, skeleton0, theme0, get_skeleton, get_theme, checkKeys,
        dictKeys, coerceMargin, splitSkeleton, splitTheme, make_colors,
        make_additions, make_traces, applyTraceMods, expandTraces, btraces0, dGet, dSet,
        pSetItem, make_layout, mlStage1, mlStage2, themeStep, customLayoutStep, legendStep,
        hstep, hhm, seqStep, titleStep, dimensionsStep, intStep, _VALID_TRACES, _VALID_COLORS,
        _VALID_ADDITIONS, _VALID_LAYOUT, _VALID_TEMPLATE_KWARGS]
    · rw [Bool.not_eq_true] at hhm
      simp [get_template, themes0, skeleton0, theme0, get_skeleton, get_theme, checkKeys,
        dictKeys, coerceMargin, splitSkeleton, splitTheme, make_colors,
        make_additions, make_traces, applyTraceMods, expandTraces, btraces0, dGet, dSet,
        pSetItem, make_layout, mlStage1, mlStage2, themeStep, customLayoutStep, legendStep,
        hstep, hhm, seqStep, titleStep, dimensionsStep, intStep, _VALID_TRACES, _VALID_COLORS,
        _VALID_ADDITIONS, _VALID_LAYOUT, _VALID_TEMPLATE_KWARGS]

/-- C2 (counterexample): every key of the override, of the base traces,
and hence of any merged result is in `_VALID_TRACES`, yet `make_traces`
raises — the overridden `bar` entry has no `line` sub-dict, so the
modifier loop's `base_traces['bar']['line']` raises `KeyError`. -/
theorem make_traces_valid_keys_still_raises :
    ((dictKeys [("bar", PVal.dict [("width", PVal.int 2)])] ++
        dictKeys btraces0).all (fun k => _VALID_TRACES.contains k) = true) ∧
    isErr (make_traces btraces0 [("bar", PVal.dict [("width", PVal.int 2)])]) = true := by
  constructor
  · decide
  · decide

/-- C2 (amended): `make_colors` and `make_additions` raise exactly when a
key of the override dict or of the merged result is outside their
allow-list; `make_traces` raises exactly when a key of the override or of
the base traces is outside `_VALID_TRACES`, or `_expand` raises (a
`candlestick`/`line`/`bar` entry missing, or `line` not a dict), or an
overridden entry lacks a `line` sub-dict; `make_layout` raises exactly
when a key of the theme layout or of the final layout dict is outside
`_VALID_LAYOUT`, or `dimensions` is truthy (the misspelled
`bsae_layout`).  The validation loops themselves never raise when all
keys belong to the allow-lists. -/
theorem make_functions_validation :
    (∀ b o : Dict, isErr (make_colors b o) = true ↔
        (∃ k ∈ dictKeys o, k ∉ _VALID_COLORS) ∨
        (∃ k ∈ dictKeys (updL b o), k ∉ _VALID_COLORS)) ∧
    (∀ b o : Dict, isErr (make_additions b o) = true ↔
        (∃ k ∈ dictKeys o, k ∉ _VALID_ADDITIONS) ∨
        (∃ k ∈ dictKeys (updL b o), k ∉ _VALID_ADDITIONS)) ∧
    (∀ b o : Dict, isErr (make_traces b o) = true ↔
        (∃ k ∈ dictKeys o, k ∉ _VALID_TRACES) ∨
        (∃ k ∈ dictKeys b, k ∉ _VALID_TRACES) ∨
        isErr (expandTraces b) = true ∨
        (∃ e, expandTraces b = Except.ok e ∧ ∃ p ∈ o, traceModOk e p.1 = false)) ∧
    (∀ (b l : Dict) (cl : Option Dict) (lg hm an sh ti dim wd ht mg : PVal),
        isErr (make_layout b l cl lg hm an sh ti dim wd ht mg) = true ↔
        (∃ k ∈ dictKeys l, k ∉ _VALID_LAYOUT) ∨ dim.truthy = true ∨
        (∃ k ∈ dictKeys (mlStage2 (mlStage1 (updL b l) hm an sh ti dim wd ht) ht wd mg),
          k ∉ _VALID_LAYOUT)) ∧
    (∀ b : Dict, isErr (expandTraces b) = true ↔
        lookup b "candlestick" = Option.none ∨ lookup b "line" = Option.none ∨
        (∃ lv, lookup b "line" = some lv ∧ lv.isDict = false) ∨
        lookup b "bar" = Option.none) :=
  ⟨isErr_make_colors_iff, isErr_make_additions_iff, isErr_make_traces_iff,
    isErr_make_layout_iff, isErr_expandTraces_iff⟩

theorem make_functions_validation_witness :
    isErr (make_colors [] [("bogus", PVal.int 1)]) = true ∧
    isErr (make_layout [] [] Option.none PVal.none PVal.none PVal.none PVal.none PVal.none
      (PVal.tuple [PVal.int 1, PVal.int 2]) PVal.none PVal.none PVal.none) = true := by
  constructor
  · apply (make_functions_validation.1 [] [("bogus", PVal.int 1)]).mpr
    refine Or.inl ⟨"bogus", ?_, ?_⟩
    · simp [dictKeys]
    · decide
  · apply (make_functions_validation.2.2.2.1 [] [] Option.none PVal.none PVal.none PVal.none
      PVal.none PVal.none (PVal.tuple [PVal.int 1, PVal.int 2]) PVal.none PVal.none
      PVal.none).mpr
    exact Or.inr (Or.inl (by decide))

/-- C5: `utils.update` (modelled from the spec; `utils.py` is not in the
sources) merges with override semantics — every key bound in the override
wins, nested dicts are merged recursively via `update` rather than
replaced wholesale, and keys bound only in the base keep their base
value. -/
theorem utils_update_override_merge (b o : Dict) (ho : (dictKeys o).Nodup) :
    (∀ k v, lookup o k = some v →
        lookup (updL b o) k = some (update (lookupD b k) v)) ∧
    (∀ bs os, update (PVal.dict bs) (PVal.dict os) = PVal.dict (updL bs os)) ∧
    (∀ k, k ∉ dictKeys o → lookup (updL b o) k = lookup b k) :=
  ⟨fun k v hk => lookup_updL_mem o b ho k v hk,
    fun bs os => update_dict_dict bs os,
    fun k hk => lookup_updL_not_mem b o k hk⟩

theorem utils_update_override_merge_witness :
    lookup (updL [("a", PVal.int 1), ("n", PVal.dict [("x", PVal.int 1), ("y", PVal.int 2)])]
        [("n", PVal.dict [("y", PVal.int 9)]), ("z", PVal.int 5)]) "n" =
      some (PVal.dict [("x", PVal.int 1), ("y", PVal.int 9)]) ∧
    lookup (updL [("a", PVal.int 1), ("n", PVal.dict [("x", PVal.int 1), ("y", PVal.int 2)])]
        [("n", PVal.dict [("y", PVal.int 9)]), ("z", PVal.int 5)]) "a" =
      some (PVal.int 1) := by
  have h := utils_update_override_merge
    [("a", PVal.int 1), ("n", PVal.dict [("x", PVal.int 1), ("y", PVal.int 2)])]
    [("n", PVal.dict [("y", PVal.int 9)]), ("z", PVal.int 5)] (by decide)
  constructor
  · have h1 := h.1 "n" (PVal.dict [("y", PVal.int 9)]) rfl
    rw [h1]
    simp [lookupD, update, updL_cons, dSet]
  · have h2 := h.2.2 "a" (by decide)
    rw [h2]
    rfl

/-- C6: for every string theme, `get_theme` returns (a deep copy of) the
bundle `THEMES[theme]` when the name is a key of `THEMES`, and raises
otherwise. -/
theorem get_theme_spec (themes : Dict) (name : String) :
    (name ∈ dictKeys themes →
        ∃ v, lookup themes name = some v ∧ get_theme themes name = Except.ok v) ∧
    (name ∉ dictKeys themes →
        get_theme themes name = Except.error ("Invalid theme " ++ name)) := by
  constructor
  · intro h
    obtain ⟨v, hv⟩ := Option.isSome_iff_exists.mp ((lookup_isSome_iff_mem themes name).mpr h)
    exact ⟨v, hv, by simp [get_theme, hv]⟩
  · intro h
    have hn := (lookup_eq_none_iff_not_mem themes name).mpr h
    simp [get_theme, hn]

theorem get_theme_spec_witness :
    get_theme themes0 "light" = Except.ok theme0 ∧
    get_theme themes0 "dark" = Except.error "Invalid theme dark" := by
  constructor
  · obtain ⟨v, hv, hok⟩ := (get_theme_spec themes0 "light").1 (by decide)
    have hv2 : v = theme0 := by
      have hl : lookup themes0 "light" = some theme0 := rfl
      rw [hl] at hv
      injection hv with h3
      exact h3.symm
    rw [← hv2]
    exact hok
  · exact (get_theme_spec themes0 "dark").2 (by decide)

theorem findMem_mem : ∀ (l : List (Nat × HObj)) (a : Nat) (o : HObj),
    findMem l a = some o → (a, o) ∈ l := by
  intro l
  induction l with
  | nil => intro a o h; simp [findMem] at h
  | cons p rest ih =>
      intro a o h
      obtain ⟨a2, o2⟩ := p
      by_cases ha : a2 = a
      · subst ha
        rw [findMem, if_pos rfl] at h
        injection h with h2
        subst h2
        exact List.mem_cons_self _ _
      · rw [findMem, if_neg ha] at h
        exact List.mem_cons_of_mem _ (ih a o h)

theorem wf_find (h : Heap) (a : Nat) (o : HObj) (hwf : wfHeap h)
    (hf : h.find a = some o) : a < h.next ∧ objBelow o h.next :=
  hwf (a, o) (findMem_mem h.mem a o hf)

theorem find_write (h : Heap) (a : Nat) (o : HObj) (a2 : Nat) :
    (h.write a o).find a2 = if a = a2 then some o else h.find a2 := rfl

theorem find_alloc (h : Heap) (o : HObj) (a : Nat) :
    (h.alloc o).1.find a = if h.next = a then some o else h.find a := rfl

theorem refsBelow_mono (v : HVal) (lo lo2 : Nat) (hle : lo ≤ lo2)
    (h : refsBelow v lo) : refsBelow v lo2 :=
  fun a ha => lt_of_lt_of_le (h a ha) hle

theorem refsGE_mono (v : HVal) (lo lo2 : Nat) (hle : lo2 ≤ lo)
    (h : refsGE v lo) : refsGE v lo2 :=
  fun a ha => le_trans hle (h a ha)

theorem objGE_mono (o : HObj) (lo lo2 : Nat) (hle : lo2 ≤ lo)
    (h : objGE o lo) : objGE o lo2 :=
  fun a ha => le_trans hle (h a ha)

theorem objBelow_hdict (es : List (String × HVal)) (lo : Nat) :
    objBelow (HObj.hdict es) lo ↔ refsBelowE es lo := by
  simp only [objBelow, refsObj, refsBelowE, refsBelow, List.mem_flatten, List.mem_map]
  constructor
  · rintro h p hp a ha
    exact h a ⟨refsV p.2, ⟨p, hp, rfl⟩, ha⟩
  · rintro h a ⟨l, ⟨p, hp, rfl⟩, ha⟩
    exact h p hp a ha

theorem objGE_hdict (es : List (String × HVal)) (lo : Nat) :
    objGE (HObj.hdict es) lo ↔ refsGEE es lo := by
  simp only [objGE, refsObj, refsGEE, refsGE, List.mem_flatten, List.mem_map]
  constructor
  · rintro h p hp a ha
    exact h a ⟨refsV p.2, ⟨p, hp, rfl⟩, ha⟩
  · rintro h a ⟨l, ⟨p, hp, rfl⟩, ha⟩
    exact h p hp a ha

theorem objBelow_hlist (xs : List HVal) (lo : Nat) :
    objBelow (HObj.hlist xs) lo ↔ refsBelowL xs lo := by
  simp only [objBelow, refsObj, refsBelowL, refsBelow, List.mem_flatten, List.mem_map]
  constructor
  · rintro h v hv a ha
    exact h a ⟨refsV v, ⟨v, hv, rfl⟩, ha⟩
  · rintro h a ⟨l, ⟨v, hv, rfl⟩, ha⟩
    exact h v hv a ha

theorem objGE_hlist (xs : List HVal) (lo : Nat) :
    objGE (HObj.hlist xs) lo ↔ refsGEL xs lo := by
  simp only [objGE, refsObj, refsGEL, refsGE, List.mem_flatten, List.mem_map]
  constructor
  · rintro h v hv a ha
    exact h a ⟨refsV v, ⟨v, hv, rfl⟩, ha⟩
  · rintro h a ⟨l, ⟨v, hv, rfl⟩, ha⟩
    exact h v hv a ha

theorem heapExtend_refl (h : Heap) : heapExtend h h :=
  ⟨le_refl _, fun _ _ => rfl⟩

theorem heapExtend_trans (h1 h2 h3 : Heap) (e12 : heapExtend h1 h2)
    (e23 : heapExtend h2 h3) : heapExtend h1 h3 :=
  ⟨le_trans e12.1 e23.1,
    fun a ha => (e23.2 a (lt_of_lt_of_le ha e12.1)).trans (e12.2 a ha)⟩

theorem freshSeg_refl (h : Heap) (hwf : wfHeap h) : freshSeg h h := by
  intro a o hf hge
  have := (wf_find h a o hwf hf).1
  omega

theorem freshSeg_compose (h1 h2 h3 : Heap) (e12 : heapExtend h1 h2)
    (e23 : heapExtend h2 h3) (f12 : freshSeg h1 h2) (f23 : freshSeg h2 h3) :
    freshSeg h1 h3 := by
  intro a o hf hge
  by_cases hlt : a < h2.next
  · rw [e23.2 a hlt] at hf
    exact f12 a o hf hge
  · exact objGE_mono o h2.next h1.next e12.1 (f23 a o hf (le_of_not_lt hlt))

theorem CopyPost_scalar (h : Heap) (r : HVal) (hwf : wfHeap h)
    (hr : refsV r = []) : CopyPost h h r := by
  refine ⟨heapExtend_refl h, hwf, ?_, ?_, freshSeg_refl h hwf⟩
  · intro a ha
    rw [hr] at ha
    simp at ha
  · intro a ha
    rw [hr] at ha
    simp at ha

theorem CopyPost_alloc (h h1 : Heap) (o : HObj) (hext : heapExtend h h1)
    (hwf1 : wfHeap h1) (hfs : freshSeg h h1) (hbelow : objBelow o h1.next)
    (hge : objGE o h.next) :
    CopyPost h (h1.alloc o).1 (HVal.href (h1.alloc o).2) := by
  refine ⟨⟨?_, ?_⟩, ?_, ?_, ?_, ?_⟩
  · exact le_trans hext.1 (Nat.le_succ _)
  · intro a ha
    have h1n := hext.1
    rw [find_alloc, if_neg (by omega : ¬h1.next = a)]
    exact hext.2 a ha
  · rintro ⟨a2, o2⟩ hmem
    rcases List.mem_cons.mp hmem with heq | hmem2
    · injection heq with ha ho
      subst ha
      subst ho
      constructor
      · simp [Heap.alloc]
      · exact fun a ha => lt_of_lt_of_le (hbelow a ha) (Nat.le_succ _)
    · obtain ⟨h1a, h1b⟩ := hwf1 _ hmem2
      exact ⟨lt_of_lt_of_le h1a (Nat.le_succ _),
        fun a ha => lt_of_lt_of_le (h1b a ha) (Nat.le_succ _)⟩
  · intro a ha
    simp [refsV] at ha
    subst ha
    simp [Heap.alloc]
  · intro a ha
    simp [refsV] at ha
    subst ha
    exact hext.1
  · intro a o2 hf hge2
    rw [find_alloc] at hf
    by_cases hn : h1.next = a
    · rw [if_pos hn] at hf
      injection hf with ho
      subst ho
      exact hge
    · rw [if_neg hn] at hf
      exact hfs a o2 hf hge2

/-- The copy invariant, by induction on the fuel: a successful deep copy
extends the heap, preserves well-formedness, returns a value whose
references are fresh (at or above the old allocation pointer) yet
allocated, and keeps the fresh segment upward closed. -/
theorem dcopy_post : ∀ n : Nat,
    (∀ h v h2 r, wfHeap h → refsBelow v h.next →
        dcopy n h v = some (h2, r) → CopyPost h h2 r) ∧
    (∀ h xs h2 xs2, wfHeap h → refsBelowL xs h.next →
        dcopyVals n h xs = some (h2, xs2) → ValsPost h h2 xs2) ∧
    (∀ h es h2 es2, wfHeap h → refsBelowE es h.next →
        dcopyEntries n h es = some (h2, es2) → EntriesPost h h2 es2) := by
  intro n
  induction n with
  | zero =>
      refine ⟨?_, ?_, ?_⟩ <;> intro h x h2 r hwf hb hc <;>
        simp [dcopy, dcopyVals, dcopyEntries] at hc
  | succ n ih =>
      obtain ⟨ihc, ihv, ihe⟩ := ih
      refine ⟨?_, ?_, ?_⟩
      · intro h v h2 r hwf hb hc
        cases v with
        | hnone =>
            simp only [dcopy, Option.some.injEq, Prod.mk.injEq] at hc
            obtain ⟨hh, hr⟩ := hc
            subst hh
            subst hr
            exact CopyPost_scalar h HVal.hnone hwf rfl
        | hbool b =>
            simp only [dcopy, Option.some.injEq, Prod.mk.injEq] at hc
            obtain ⟨hh, hr⟩ := hc
            subst hh
            subst hr
            exact CopyPost_scalar h (HVal.hbool b) hwf rfl
        | hint n2 =>
            simp only [dcopy, Option.some.injEq, Prod.mk.injEq] at hc
            obtain ⟨hh, hr⟩ := hc
            subst hh
            subst hr
            exact CopyPost_scalar h (HVal.hint n2) hwf rfl
        | hstr s2 =>
            simp only [dcopy, Option.some.injEq, Prod.mk.injEq] at hc
            obtain ⟨hh, hr⟩ := hc
            subst hh
            subst hr
            exact CopyPost_scalar h (HVal.hstr s2) hwf rfl
        | href a =>
            have ha : a < h.next := hb a (by simp [refsV])
            rcases hf : h.find a with _ | o
            · simp [dcopy, hf] at hc
            · obtain ⟨hlt, hobj⟩ := wf_find h a o hwf hf
              cases o with
              | hdict es =>
                  rcases hce : dcopyEntries n h es with _ | p
                  · simp [dcopy, hf, hce] at hc
                  · obtain ⟨h1, es2⟩ := p
                    obtain ⟨e1, w1, bl1, ge1, f1⟩ :=
                      ihe h es h1 es2 hwf ((objBelow_hdict es h.next).mp hobj) hce
                    simp only [dcopy, hf, hce, Option.some.injEq, Prod.mk.injEq] at hc
                    obtain ⟨hh, hr⟩ := hc
                    subst hh
                    subst hr
                    exact CopyPost_alloc h h1 (HObj.hdict es2) e1 w1 f1
                      ((objBelow_hdict es2 h1.next).mpr bl1)
                      ((objGE_hdict es2 h.next).mpr ge1)
              | hlist xs =>
                  rcases hce : dcopyVals n h xs with _ | p
                  · simp [dcopy, hf, hce] at hc
                  · obtain ⟨h1, xs2⟩ := p
                    obtain ⟨e1, w1, bl1, ge1, f1⟩ :=
                      ihv h xs h1 xs2 hwf ((objBelow_hlist xs h.next).mp hobj) hce
                    simp only [dcopy, hf, hce, Option.some.injEq, Prod.mk.injEq] at hc
                    obtain ⟨hh, hr⟩ := hc
                    subst hh
                    subst hr
                    exact CopyPost_alloc h h1 (HObj.hlist xs2) e1 w1 f1
                      ((objBelow_hlist xs2 h1.next).mpr bl1)
                      ((objGE_hlist xs2 h.next).mpr ge1)
      · intro h xs h2 xs2 hwf hb hc
        cases xs with
        | nil =>
            simp only [dcopyVals, Option.some.injEq, Prod.mk.injEq] at hc
            obtain ⟨hh, hr⟩ := hc
            subst hh
            subst hr
            refine ⟨heapExtend_refl h, hwf, ?_, ?_, freshSeg_refl h hwf⟩ <;>
              intro x hx <;> simp at hx
        | cons v rest =>
            rcases hc1 : dcopy n h v with _ | p1
            · simp [dcopyVals, hc1] at hc
            · obtain ⟨h1, v2⟩ := p1
              rcases hc2 : dcopyVals n h1 rest with _ | p2
              · simp [dcopyVals, hc1, hc2] at hc
              · obtain ⟨hmid, rest2⟩ := p2
                simp only [dcopyVals, hc1, hc2, Option.some.injEq, Prod.mk.injEq] at hc
                obtain ⟨hh, hr⟩ := hc
                subst hh
                subst hr
                have hbv : refsBelow v h.next := hb v (List.mem_cons_self _ _)
                have hbrest : refsBelowL rest h.next :=
                  fun x hx => hb x (List.mem_cons_of_mem _ hx)
                obtain ⟨e1, w1, bl1, ge1, f1⟩ := ihc h v h1 v2 hwf hbv hc1
                have hbrest1 : refsBelowL rest h1.next :=
                  fun x hx => refsBelow_mono _ _ _ e1.1 (hbrest x hx)
                obtain ⟨e2, w2, bl2, ge2, f2⟩ := ihv h1 rest hmid rest2 w1 hbrest1 hc2
                refine ⟨heapExtend_trans h h1 hmid e1 e2, w2, ?_, ?_,
                  freshSeg_compose h h1 hmid e1 e2 f1 f2⟩
                · intro x hx
                  rcases List.mem_cons.mp hx with rfl | hx2
                  · exact refsBelow_mono _ _ _ e2.1 bl1
                  · exact bl2 x hx2
                · intro x hx
                  rcases List.mem_cons.mp hx with rfl | hx2
                  · exact ge1
                  · exact refsGE_mono x h1.next h.next e1.1 (ge2 x hx2)
      · intro h es h2 es2 hwf hb hc
        cases es with
        | nil =>
            simp only [dcopyEntries, Option.some.injEq, Prod.mk.injEq] at hc
            obtain ⟨hh, hr⟩ := hc
            subst hh
            subst hr
            refine ⟨heapExtend_refl h, hwf, ?_, ?_, freshSeg_refl h hwf⟩ <;>
              intro x hx <;> simp at hx
        | cons p rest =>
            obtain ⟨k, v⟩ := p
            rcases hc1 : dcopy n h v with _ | p1
            · simp [dcopyEntries, hc1] at hc
            · obtain ⟨h1, v2⟩ := p1
              rcases hc2 : dcopyEntries n h1 rest with _ | p2
              · simp [dcopyEntries, hc1, hc2] at hc
              · obtain ⟨hmid, rest2⟩ := p2
                simp only [dcopyEntries, hc1, hc2, Option.some.injEq, Prod.mk.injEq] at hc
                obtain ⟨hh, hr⟩ := hc
                subst hh
                subst hr
                have hbv : refsBelow v h.next := hb (k, v) (List.mem_cons_self _ _)
                have hbrest : refsBelowE rest h.next :=
                  fun x hx => hb x (List.mem_cons_of_mem _ hx)
                obtain ⟨e1, w1, bl1, ge1, f1⟩ := ihc h v h1 v2 hwf hbv hc1
                have hbrest1 : refsBelowE rest h1.next :=
                  fun x hx => refsBelow_mono _ _ _ e1.1 (hbrest x hx)
                obtain ⟨e2, w2, bl2, ge2, f2⟩ := ihe h1 rest hmid rest2 w1 hbrest1 hc2
                refine ⟨heapExtend_trans h h1 hmid e1 e2, w2, ?_, ?_,
                  freshSeg_compose h h1 hmid e1 e2 f1 f2⟩
                · intro x hx
                  rcases List.mem_cons.mp hx with rfl | hx2
                  · exact refsBelow_mono _ _ _ e2.1 bl1
                  · exact bl2 x hx2
                · intro x hx
                  rcases List.mem_cons.mp hx with rfl | hx2
                  · exact ge1
                  · exact refsGE_mono x.2 h1.next h.next e1.1 (ge2 x hx2)

/-- Reading a value only depends on the heap below `lo`, provided the
heap is closed below `lo`. -/
theorem readV_agree : ∀ (n : Nat) (hA hB : Heap) (lo : Nat),
    (∀ a, a < lo → hB.find a = hA.find a) →
    (∀ a o, hA.find a = some o → a < lo → objBelow o lo) →
    (∀ v, refsBelow v lo → readV n hB v = readV n hA v) ∧
    (∀ xs, refsBelowL xs lo → readVals n hB xs = readVals n hA xs) ∧
    (∀ es, refsBelowE es lo → readEntries n hB es = readEntries n hA es) := by
  intro n
  induction n with
  | zero =>
      intro hA hB lo hagree hclosed
      exact ⟨fun v _ => rfl, fun xs _ => rfl, fun es _ => rfl⟩
  | succ n ih =>
      intro hA hB lo hagree hclosed
      obtain ⟨ihv, ihl, ihe⟩ := ih hA hB lo hagree hclosed
      refine ⟨?_, ?_, ?_⟩
      · intro v hb
        cases v with
        | hnone => rfl
        | hbool b => rfl
        | hint n2 => rfl
        | hstr s2 => rfl
        | href a =>
            have ha : a < lo := hb a (by simp [refsV])
            rcases hf : hA.find a with _ | o
            · simp [readV, hagree a ha, hf]
            · cases o with
              | hdict es =>
                  have hbe := (objBelow_hdict es lo).mp (hclosed a _ hf ha)
                  simp [readV, hagree a ha, hf, ihe es hbe]
              | hlist xs =>
                  have hbx := (objBelow_hlist xs lo).mp (hclosed a _ hf ha)
                  simp [readV, hagree a ha, hf, ihl xs hbx]
      · intro xs hb
        cases xs with
        | nil => rfl
        | cons v rest =>
            have h1 := ihv v (hb v (List.mem_cons_self _ _))
            have h2 := ihl rest (fun x hx => hb x (List.mem_cons_of_mem _ hx))
            simp [readVals, h1, h2]
      · intro es hb
        cases es with
        | nil => rfl
        | cons p rest =>
            obtain ⟨k, v⟩ := p
            have h1 := ihv v (hb (k, v) (List.mem_cons_self _ _))
            have h2 := ihe rest (fun x hx => hb x (List.mem_cons_of_mem _ hx))
            simp [readEntries, h1, h2]

/-- Isolation of a deep copy: the result refers only to fresh addresses,
the copy does not change the reading of any pre-existing value, and
neither does a later write at any fresh address. -/
theorem dcopy_isolates (n m : Nat) (h h2 : Heap) (v r w : HVal)
    (hwf : wfHeap h) (hv : refsBelow v h.next) (hw : refsBelow w h.next)
    (hc : dcopy n h v = some (h2, r)) :
    refsGE r h.next ∧ readV m h2 w = readV m h w ∧
      ∀ b onew, h.next ≤ b → readV m (h2.write b onew) w = readV m h w := by
  obtain ⟨hext, hwf2, hbr, hger, hfs⟩ := (dcopy_post n).1 h v h2 r hwf hv hc
  have hclosed : ∀ a o, h.find a = some o → a < h.next → objBelow o h.next :=
    fun a o hf _ => (wf_find h a o hwf hf).2
  refine ⟨hger, ?_, ?_⟩
  · exact (readV_agree m h h2 h.next hext.2 hclosed).1 w hw
  · intro b onew hb
    have hagree2 : ∀ a, a < h.next → (h2.write b onew).find a = h.find a := by
      intro a ha
      rw [find_write, if_neg (by omega : ¬b = a)]
      exact hext.2 a ha
    exact (readV_agree m h (h2.write b onew) h.next hagree2 hclosed).1 w hw

theorem hLookup_mem : ∀ (es : List (String × HVal)) (k : String) (v : HVal),
    hLookup es k = some v → (k, v) ∈ es := by
  intro es
  induction es with
  | nil => intro k v h; simp [hLookup] at h
  | cons p rest ih =>
      intro k v h
      obtain ⟨k2, v2⟩ := p
      by_cases hk : k2 = k
      · subst hk
        rw [hLookup, if_pos rfl] at h
        injection h with h2
        subst h2
        exact List.mem_cons_self _ _
      · rw [hLookup, if_neg hk] at h
        exact List.mem_cons_of_mem _ (ih k v h)

/-- C8: `get_theme` and `get_skeleton` return deep copies: the call
leaves every pre-existing value — `THEMES` and `SKELETON` included —
reading unchanged, the returned value refers only to freshly allocated
objects, and a write at any fresh address (hence any mutation the caller
later performs on the returned dicts) still leaves every pre-existing
value reading unchanged.  `get_template` only ever mutates the copies
these two return, so the module data survives it as well. -/
theorem get_theme_skeleton_deepcopy (n m : Nat) (h : Heap) (themesRef w : HVal)
    (hwf : wfHeap h) (hthemes : refsBelow themesRef h.next) (hw : refsBelow w h.next) :
    (∀ name h2 r, get_theme_heap n h themesRef name = some (h2, r) →
        refsGE r h.next ∧ readV m h2 w = readV m h w ∧
        ∀ b onew, h.next ≤ b → readV m (h2.write b onew) w = readV m h w) ∧
    (∀ h2 r, get_skeleton_heap n h themesRef = some (h2, r) →
        refsGE r h.next ∧ readV m h2 w = readV m h w ∧
        ∀ b onew, h.next ≤ b → readV m (h2.write b onew) w = readV m h w) := by
  constructor
  · intro name h2 r hcall
    cases themesRef with
    | hnone => simp [get_theme_heap] at hcall
    | hbool b => simp [get_theme_heap] at hcall
    | hint n2 => simp [get_theme_heap] at hcall
    | hstr s2 => simp [get_theme_heap] at hcall
    | href a =>
        rcases hf : h.find a with _ | o
        · simp [get_theme_heap, hf] at hcall
        · cases o with
          | hlist xs => simp [get_theme_heap, hf] at hcall
          | hdict es =>
              rcases hl : hLookup es name with _ | v
              · simp [get_theme_heap, hf, hl] at hcall
              · simp only [get_theme_heap, hf, hl] at hcall
                have hv : refsBelow v h.next := by
                  have hobj := (wf_find h a (HObj.hdict es) hwf hf).2
                  exact (objBelow_hdict es h.next).mp hobj (name, v) (hLookup_mem es name v hl)
                exact dcopy_isolates n m h h2 v r w hwf hv hw hcall
  · intro h2 r hcall
    simp only [get_skeleton_heap] at hcall
    exact dcopy_isolates n m h h2 themesRef r w hwf hthemes hw hcall

theorem get_theme_skeleton_deepcopy_witness :
    get_theme_heap 9 h0ex (HVal.href 0) "light" = some (h2ex, HVal.href 2) ∧
    readV 5 h2ex (HVal.href 0) = readV 5 h0ex (HVal.href 0) ∧
    readV 5 (h2ex.write 2 (HObj.hdict [])) (HVal.href 0) = readV 5 h0ex (HVal.href 0) := by
  have hcall : get_theme_heap 9 h0ex (HVal.href 0) "light" = some (h2ex, HVal.href 2) := rfl
  have h := (get_theme_skeleton_deepcopy 9 5 h0ex (HVal.href 0) (HVal.href 0)
      (by decide) (by decide) (by decide)).1 "light" h2ex (HVal.href 2) hcall
  exact ⟨hcall, h.2.1, h.2.2 2 (HObj.hdict []) (by decide)⟩

end Quantmod
